import Mathlib

/-!
Verification of the CPU/NUMA topology and pinning generator of `scripts/sysinfo.py`.

The Python source is shallowly embedded: the `/sys` attribute tree is modelled
as a record of partial string-valued reads (`SysFS`), Python exceptions that
escape a function are modelled with `Except PyError`, list-returning loops
become `List` combinators, and `while` loops with cursor state become
fuel-indexed recursion (the fuel is always sufficient in the reachable cases,
which the lemmas establish).
-/

set_option maxHeartbeats 1000000

namespace Sysinfo

/-! ## Embedded definitions -/

/-- A Python exception escaping one of the embedded functions.  Only `ValueError`
can actually escape the fragments modelled here. -/
inductive PyError where
  | valueError
deriving DecidableEq

instance exceptDecEq {ε α : Type} [DecidableEq ε] [DecidableEq α] :
    DecidableEq (Except ε α) := fun x y =>
  match x, y with
  | .ok a, .ok b => decidable_of_iff (a = b) (by simp)
  | .ok _, .error _ => .isFalse (by simp)
  | .error _, .ok _ => .isFalse (by simp)
  | .error e, .error f => decidable_of_iff (e = f) (by simp)

/-- Python's left-to-right `[f(x) for x in xs]` where `f` may raise: `none` as
soon as any element fails. -/
def mapOption {α β : Type} (f : α → Option β) : List α → Option (List β)
  | [] => some []
  | x :: xs =>
    match f x, mapOption f xs with
    | some y, some ys => some (y :: ys)
    | _, _ => none

/-- The `NodeInfo` dataclass of `sysinfo.py`: node id, memory-capability flag,
ordered list of core tuples (each a list of logical CPU ids) and the distance
vector (indexed by destination node id). -/
structure NodeInfo where
  id : Nat
  memory : Bool
  cores_list : List (List Int)
  distance : List Int
deriving DecidableEq

/-- A cluster is an ordered list of `NodeInfo`, as produced by `get_clusters`. -/
abbrev Cluster := List NodeInfo

/-- All core tuples of all nodes of all clusters, in generator order
(`for cluster in clusters for node in cluster for core in node.cores_list`). -/
def allCores (clusters : List Cluster) : List (List Int) :=
  clusters.flatMap (fun cluster => cluster.flatMap (fun node => node.cores_list))

/-- `max(len(core) for ...)` over all core tuples; `0` when there are no tuples
(the Python `max` raises there, which the callers model separately). -/
def maxSmt (clusters : List Cluster) : Nat :=
  (allCores clusters).foldl (fun a core => max a core.length) 0

/-- The ids contributed by one node at one SMT position:
`for core in node.cores_list: if smt_pos < len(core): cpu_list.append(core[smt_pos])`. -/
def emitNode (smt : Nat) (node : NodeInfo) : List Int :=
  node.cores_list.flatMap (fun core => (core[smt]?).toList)

/-- `CPUPinningGenerator.cluster_first_pinning`.  Mirrors the guard
`if not clusters or not clusters[0] or not clusters[0][0].cores_list: return []`
and then the four nested `for` loops with `smt_pos` outermost. -/
def cluster_first_pinning (clusters : List Cluster) : List Int :=
  match clusters with
  | [] => []
  | cluster0 :: _ =>
    match cluster0 with
    | [] => []
    | node0 :: _ =>
      if node0.cores_list.isEmpty then []
      else
        (List.range (maxSmt clusters)).flatMap (fun smt =>
          clusters.flatMap (fun cluster =>
            cluster.flatMap (fun node => emitNode smt node)))

/-- Spec-side rendering of the cluster-first algorithm, written from the spec's
words: let `S` be the maximum SMT width; for `smt_pos` from 0 to `S-1` (outer),
then clusters in order, nodes in order, tuples in order, append the tuple's
`smt_pos`-th logical id whenever the tuple has at least `smt_pos+1` members. -/
def clusterFirstSpec (clusters : List Cluster) : List Int :=
  (List.range (maxSmt clusters)).flatMap (fun smt =>
    clusters.flatMap (fun cluster =>
      cluster.flatMap (fun node =>
        node.cores_list.filterMap (fun core => core[smt]?))))

/-- One cluster's inner loop of `ping_pong_pinning`: from cursor `p`, process up
to `npr` nodes while the cursor is in range, emitting each visited node's ids at
`smt`; returns the emitted ids and the new cursor. -/
def pingInner (smt : Nat) (cluster : Cluster) : Nat → Nat → List Int × Nat
  | 0, p => ([], p)
  | n + 1, p =>
    match cluster[p]? with
    | none => ([], p)
    | some node =>
      let r := pingInner smt cluster n (p + 1)
      (emitNode smt node ++ r.1, r.2)

/-- One round of `ping_pong_pinning`: visit clusters in order, each advancing its
own cursor by up to `npr` nodes. -/
def pingRound (npr smt : Nat) : List Cluster → List Nat → List Int × List Nat
  | [], _ => ([], [])
  | _, [] => ([], [])
  | cluster :: clusters, p :: ps =>
    let r := pingInner smt cluster npr p
    let rest := pingRound npr smt clusters ps
    (r.1 ++ rest.1, r.2 :: rest.2)

/-- `any(pos < len(cluster) for pos, cluster in zip(cluster_positions, clusters))`. -/
def anyRemaining (clusters : List Cluster) (positions : List Nat) : Bool :=
  (positions.zip clusters).any (fun pc => pc.1 < pc.2.length)

/-- The `while` loop of `ping_pong_pinning`, fuel-indexed.  The fuel passed by
`ping_pong_pinning` is always sufficient since each round with a remaining
cluster advances at least one cursor. -/
def pingWhile (npr smt : Nat) (clusters : List Cluster) : Nat → List Nat → List Int
  | 0, _ => []
  | fuel + 1, positions =>
    if anyRemaining clusters positions then
      let r := pingRound npr smt clusters positions
      r.1 ++ pingWhile npr smt clusters fuel r.2
    else []

/-- Total number of nodes across all clusters. -/
def totalNodes (clusters : List Cluster) : Nat :=
  (clusters.map List.length).sum

/-- `CPUPinningGenerator.ping_pong_pinning`.  `none` models the uncaught
`ValueError` that Python's `max()` raises when the clusters contain no core
tuples at all (the guard only returns `[]` for an empty clusters list or a
non-positive `nodes_per_round`). -/
def ping_pong_pinning (clusters : List Cluster) (nodes_per_round : Int) : Option (List Int) :=
  if clusters.isEmpty ∨ nodes_per_round ≤ 0 then some []
  else if (allCores clusters).isEmpty then none
  else
    some ((List.range (maxSmt clusters)).flatMap (fun smt =>
      pingWhile nodes_per_round.toNat smt clusters (totalNodes clusters + 1)
        (List.replicate clusters.length 0)))

/-- Spec-side rendering of one ping-pong round's node visits: each cluster's
remaining node list contributes its first `npr` nodes. -/
def specRoundVisits (npr : Nat) (state : List Cluster) : List NodeInfo :=
  state.flatMap (fun rem => rem.take npr)

/-- Spec-side cursor advance: each cluster's remaining node list loses its first
`npr` nodes. -/
def specAdvance (npr : Nat) (state : List Cluster) : List Cluster :=
  state.map (fun rem => rem.drop npr)

/-- Spec-side visit order: repeat rounds until every cluster's remaining node
list is exhausted, visiting clusters in order and taking up to `npr` nodes from
each per round. -/
def specVisitOrder (npr : Nat) : Nat → List Cluster → List NodeInfo
  | 0, _ => []
  | fuel + 1, state =>
    if state.all List.isEmpty then []
    else specRoundVisits npr state ++ specVisitOrder npr fuel (specAdvance npr state)

/-- Spec-side rendering of the ping-pong algorithm, written from the spec's
words: for each SMT position, visit the nodes in round-robin visit order and for
each visited node append the `smt`-th logical id of every wide-enough tuple. -/
def pingPongSpec (clusters : List Cluster) (npr : Nat) : List Int :=
  (List.range (maxSmt clusters)).flatMap (fun smt =>
    (specVisitOrder npr (totalNodes clusters + 1) clusters).flatMap (emitNode smt))

/-- The remaining-suffix view of the cursor state: cluster `i` with cursor `p`
corresponds to the suffix of its node list from index `p`. -/
def stateOf (clusters : List Cluster) (positions : List Nat) : List Cluster :=
  List.zipWith (fun cluster p => cluster.drop p) clusters positions

/-- Python `str.strip()` on a character sequence. -/
def stripChars (cs : List Char) : List Char :=
  ((cs.dropWhile Char.isWhitespace).reverse.dropWhile Char.isWhitespace).reverse

/-- Python `str.split(sep)` for a one-character separator: keeps empty pieces,
and the empty string yields one empty piece. -/
def splitOnChar (sep : Char) : List Char → List (List Char)
  | [] => [[]]
  | c :: rest =>
    if c = sep then [] :: splitOnChar sep rest
    else
      match splitOnChar sep rest with
      | [] => [[c]]
      | t :: ts => (c :: t) :: ts

/-- Helper of `splitWS`: accumulates the current (reversed) token. -/
def splitWSAux : List Char → List Char → List (List Char)
  | acc, [] => if acc.isEmpty then [] else [acc.reverse]
  | acc, c :: rest =>
    if c.isWhitespace then
      if acc.isEmpty then splitWSAux [] rest
      else acc.reverse :: splitWSAux [] rest
    else splitWSAux (c :: acc) rest

/-- Python `str.split()` with no argument: split on whitespace runs, dropping
empty tokens. -/
def splitWS (cs : List Char) : List (List Char) := splitWSAux [] cs

/-- Decimal digit run to a natural number; `none` on an empty or non-digit run. -/
def digitsToNat : List Char → Option Nat
  | [] => none
  | cs =>
    if cs.all Char.isDigit then
      some (cs.foldl (fun acc c => acc * 10 + (c.toNat - 48)) 0)
    else none

/-- Python `int(token)`: optional surrounding whitespace and a sign, then
decimal digits; `none` models the `ValueError` raised on anything else
(including the empty string). -/
def pyIntTok (cs : List Char) : Option Int :=
  match stripChars cs with
  | '+' :: rest => (digitsToNat rest).map (fun n => (n : Int))
  | '-' :: rest => (digitsToNat rest).map (fun n => -(n : Int))
  | ds => (digitsToNat ds).map (fun n => (n : Int))

/-- `int()` applied to a whole file's text. -/
def pyInt (s : String) : Option Int := pyIntTok s.data

/-- The fragment of the `/sys` attribute tree read by the embedded functions.
Each field models one attribute read of `sysinfo.py`: `none` is a missing file
or an IO/permission error (`IOError`/`FileNotFoundError`), `some s` the file's
text.  `cache_index_dirs` and `node_dirs` model the `iterdir()` enumerations
(numeric suffixes of the matching entries, in directory order), with `none`
again an access error. -/
structure SysFS where
  thread_siblings_list : Int → Option String
  cache_index_dirs : Int → Option (List Nat)
  cache_id : Int → Nat → Option String
  has_memory : Option String
  node_dirs : Option (List Nat)
  cpulist : Nat → Option String
  distance : Nat → Option String

/-- `SystemTopology._get_cpus_logical_ids`: returns `[]` when the siblings file
cannot be read (only `IOError`/`FileNotFoundError` are caught), but lets the
`ValueError` of `int()` on an empty or non-numeric token escape. -/
def _get_cpus_logical_ids (fs : SysFS) (logical_id : Int) : Except PyError (List Int) :=
  match fs.thread_siblings_list logical_id with
  | none => .ok []
  | some content =>
    match mapOption pyIntTok (splitOnChar ',' (stripChars content.data)) with
    | some xs => .ok xs
    | none => .error .valueError

/-- The per-directory loop of `_get_cache_info`: a failing `id` read returns the
ids accumulated so far (the `except` clause), a non-numeric one raises. -/
def readCacheLevels (fs : SysFS) (logical_id : Int) :
    List Nat → List Int → Except PyError (List Int)
  | [], acc => .ok acc
  | idx :: rest, acc =>
    match fs.cache_id logical_id idx with
    | none => .ok acc
    | some content =>
      match pyInt content with
      | none => .error .valueError
      | some v => readCacheLevels fs logical_id rest (acc ++ [v])

/-- `SystemTopology._get_cache_info`: sorts the `index<K>` directories by `K`
and reads each `id` file in turn.  A failed directory listing yields `[]`. -/
def _get_cache_info (fs : SysFS) (logical_id : Int) : Except PyError (List Int) :=
  match fs.cache_index_dirs logical_id with
  | none => .ok []
  | some dirs => readCacheLevels fs logical_id (List.insertionSort (· ≤ ·) dirs) []

/-- A filesystem whose every siblings file holds a non-numeric token. -/
def fsBadToken : SysFS where
  thread_siblings_list := fun _ => some "abc"
  cache_index_dirs := fun _ => none
  cache_id := fun _ _ => none
  has_memory := none
  node_dirs := none
  cpulist := fun _ => none
  distance := fun _ => none

/-- A filesystem with one readable siblings file and everything else absent. -/
def fsMixed : SysFS where
  thread_siblings_list := fun j => if j = 0 then some "0,4" else none
  cache_index_dirs := fun _ => none
  cache_id := fun _ _ => none
  has_memory := none
  node_dirs := none
  cpulist := fun _ => none
  distance := fun _ => none

/-- The record Python builds per kept core tuple in `optimize_cache_nodes`
(`{'core_tuple': ..., 'cache_id': ..., 'first_logical_id': ...}`). -/
structure CacheRecord where
  core_tuple : List Int
  cache_id : Int
  first_logical_id : Int
deriving DecidableEq

/-- Python's tuple comparison on the sort key `(cache_id, first_logical_id)`. -/
def cacheRecLE (x y : CacheRecord) : Prop :=
  x.cache_id < y.cache_id ∨ (x.cache_id = y.cache_id ∧ x.first_logical_id ≤ y.first_logical_id)

instance : DecidableRel cacheRecLE := fun x y => by
  unfold cacheRecLE
  infer_instance

instance : IsTotal CacheRecord cacheRecLE :=
  ⟨fun x y => by unfold cacheRecLE; omega⟩

instance : IsTrans CacheRecord cacheRecLE :=
  ⟨fun x y z hxy hyz => by unfold cacheRecLE at *; omega⟩

/-- The filtering loop of `optimize_cache_nodes`: skip empty tuples, look up the
first logical id's cache ids (propagating a `ValueError` from the lookup), and
skip tuples with no cache ids or with fewer than `lvl+1` of them. -/
def buildCores (fs : SysFS) (lvl : Nat) : List (List Int) → Except PyError (List CacheRecord)
  | [] => .ok []
  | core_tuple :: rest =>
    match core_tuple with
    | [] => buildCores fs lvl rest
    | c0 :: t =>
      match _get_cache_info fs c0 with
      | .error e => .error e
      | .ok cache_ids =>
        if cache_ids.isEmpty ∨ cache_ids.length ≤ lvl then buildCores fs lvl rest
        else
          match buildCores fs lvl rest with
          | .error e => .error e
          | .ok recs => .ok (⟨c0 :: t, cache_ids.getD lvl 0, c0⟩ :: recs)

/-- `SystemTopology.optimize_cache_nodes`: a negative level returns the node
unchanged; otherwise the kept tuples, stably sorted by
`(cache_id, first_logical_id)` (Python's stable `list.sort`, modelled by stable
insertion sort), replace the node's core list. -/
def optimize_cache_nodes (fs : SysFS) (node : NodeInfo) (cache_level : Int) :
    Except PyError NodeInfo :=
  if cache_level < 0 then .ok node
  else
    match buildCores fs cache_level.toNat node.cores_list with
    | .error e => .error e
    | .ok recs =>
      .ok { node with cores_list := (List.insertionSort cacheRecLE recs).map (·.core_tuple) }

/-- The claim's keep condition on a tuple: non-empty, and its first logical id
yields a cache-id list with at least `lvl+1` entries. -/
def keepsTuple (fs : SysFS) (lvl : Nat) (core_tuple : List Int) : Bool :=
  match core_tuple with
  | [] => false
  | c0 :: _ =>
    match _get_cache_info fs c0 with
    | .error _ => false
    | .ok cache_ids => decide (lvl < cache_ids.length)

/-- The claim's composite ordering key of a kept tuple: the cache id at `lvl` of
its first logical id, then the first logical id. -/
def tupleCacheKey (fs : SysFS) (lvl : Nat) (t : List Int) : Int × Int :=
  (((_get_cache_info fs (t.headD 0)).toOption.getD []).getD lvl 0, t.headD 0)

/-- Ascending comparison of composite keys. -/
def keyLE (k1 k2 : Int × Int) : Prop :=
  k1.1 < k2.1 ∨ (k1.1 = k2.1 ∧ k1.2 ≤ k2.2)

/-- Every record produced by `buildCores` carries the data of a successful
lookup of its tuple's first logical id. -/
def recWellFormed (fs : SysFS) (lvl : Nat) (r : CacheRecord) : Prop :=
  ∃ c0 t ids, r.core_tuple = c0 :: t ∧ _get_cache_info fs c0 = .ok ids ∧
    lvl < ids.length ∧ r.cache_id = ids.getD lvl 0 ∧ r.first_logical_id = c0

/-- A two-CPU filesystem whose level-0 cache ids invert the logical-id order. -/
def fsC5 : SysFS where
  thread_siblings_list := fun _ => none
  cache_index_dirs := fun c => if c = 0 ∨ c = 2 then some [0] else none
  cache_id := fun c _ => if c = 0 then some "1" else if c = 2 then some "0" else none
  has_memory := none
  node_dirs := none
  cpulist := fun _ => none
  distance := fun _ => none

/-- The warnings/errors printed by `get_nodes_info`, modelled structurally. -/
inductive Warn where
  | memoryInfo
  | nodeAccess
  | nodeInfo (id : Nat)
deriving DecidableEq

/-- `list(range(start, end + 1))`. -/
def intRange (start fin : Int) : List Int :=
  if start ≤ fin then (List.range (fin + 1 - start).toNat).map (fun k => start + k) else []

/-- The cpulist parse of `get_nodes_info`: a value containing `-` is split as a
two-endpoint inclusive range, anything else is a comma list whose blank tokens
are skipped; `none` models the `ValueError` of `int()` or of tuple unpacking
(all caught by the per-node `except`). -/
def pyCpulist (cs : List Char) : Option (List Int) :=
  if cs.contains '-' then
    match splitOnChar '-' cs with
    | [a, b] =>
      match pyIntTok a, pyIntTok b with
      | some s, some e => some (intRange s e)
      | _, _ => none
    | _ => none
  else
    mapOption pyIntTok ((splitOnChar ',' cs).filter (fun t => !(stripChars t).isEmpty))

/-- The `seen`/`unique_cores` loop: drop tuples already seen, keep first
occurrences in order. -/
def dedupFirstGo (seen : List (List Int)) : List (List Int) → List (List Int)
  | [] => []
  | core :: rest =>
    if core ∈ seen then dedupFirstGo seen rest
    else core :: dedupFirstGo (core :: seen) rest

/-- Deduplicate while preserving first-seen order. -/
def dedupFirst (l : List (List Int)) : List (List Int) := dedupFirstGo [] l

/-- The sibling lookup's value, with `[]` for the read-failure result. -/
def sibOf (fs : SysFS) (c : Int) : List Int :=
  ((_get_cpus_logical_ids fs c).toOption).getD []

/-- The body of `get_nodes_info`'s per-node `try` block; `none` models the
caught `IOError`/`FileNotFoundError`/`ValueError` (warned and skipped). -/
def processNode (fs : SysFS) (memory_nodes : List Int) (node_id : Nat) : Option NodeInfo :=
  match fs.cpulist node_id with
  | none => none
  | some raw =>
    match pyCpulist (stripChars raw.data) with
    | none => none
    | some cpus =>
      match fs.distance node_id with
      | none => none
      | some draw =>
        match mapOption pyIntTok (splitWS (stripChars draw.data)) with
        | none => none
        | some distances =>
          match mapOption (fun core =>
              match _get_cpus_logical_ids fs core with
              | .error _ => none
              | .ok sibs => some sibs) cpus with
          | none => none
          | some sibLists =>
            some { id := node_id,
                   memory := memory_nodes.contains (node_id : Int),
                   cores_list := dedupFirst (sibLists.filter (fun s => !s.isEmpty)),
                   distance := distances }

/-- The node-directory scan of `get_nodes_info` after the memory set is known:
failing nodes are skipped with a warning, survivors are sorted ascending by id
(Python's stable `list.sort`, modelled by stable insertion sort). -/
def get_nodes_info_nodes (fs : SysFS) (memory_nodes : List Int) (warns : List Warn) :
    Except PyError (List NodeInfo × List Warn) :=
  match fs.node_dirs with
  | none => .ok ([], warns ++ [Warn.nodeAccess])
  | some dirs =>
    .ok (List.insertionSort (fun a b => a.id ≤ b.id)
        ((dirs.map (fun i => (i, processNode fs memory_nodes i))).filterMap (·.2)),
      warns ++ (dirs.map (fun i => (i, processNode fs memory_nodes i))).filterMap
        (fun p => if p.2.isNone then some (Warn.nodeInfo p.1) else none))

/-- `SystemTopology.get_nodes_info`: the memory-node set read is non-fatal with
a warning, but a malformed `has_memory` content makes `int()` raise an uncaught
`ValueError` (modelled as `.error`). -/
def get_nodes_info (fs : SysFS) : Except PyError (List NodeInfo × List Warn) :=
  match fs.has_memory with
  | none => get_nodes_info_nodes fs [] [Warn.memoryInfo]
  | some content =>
    match mapOption pyIntTok (splitOnChar ',' (stripChars content.data)) with
    | none => .error .valueError
    | some mems => get_nodes_info_nodes fs mems []

/-- A topology whose node 0 claims CPUs 0 and 1, where CPU 0's sibling file
names the foreign CPU 7 and CPU 1's sibling file is unreadable. -/
def fsC7 : SysFS where
  thread_siblings_list := fun i => if i = 0 then some "0,7" else none
  cache_index_dirs := fun _ => none
  cache_id := fun _ _ => none
  has_memory := some "0"
  node_dirs := some [0]
  cpulist := fun j => if j = 0 then some "0,1" else none
  distance := fun j => if j = 0 then some "10" else none

/-- A consistent two-core, four-CPU topology for the C7 witness. -/
def fsC7good : SysFS where
  thread_siblings_list := fun i =>
    if i = 0 ∨ i = 2 then some "0,2" else if i = 1 ∨ i = 3 then some "1,3" else none
  cache_index_dirs := fun _ => none
  cache_id := fun _ _ => none
  has_memory := some "0"
  node_dirs := some [0]
  cpulist := fun j => if j = 0 then some "0-3" else none
  distance := fun j => if j = 0 then some "10" else none

/-- `dist < min_dist` with `none` playing `float('inf')` (and a missing entry
never comparing below anything). -/
def oLT : Option Int → Option Int → Bool
  | some a, some b => a < b
  | some _, none => true
  | none, _ => false

/-- `≤` on distances with `none` as infinity. -/
def oLE : Option Int → Option Int → Bool
  | some a, some b => a ≤ b
  | some _, none => true
  | none, some _ => false
  | none, none => true

/-- `node.distance[mem_node.id]` under the guard `mem_node.id < len(node.distance)`. -/
def dOf (n a : NodeInfo) : Option Int := n.distance[a.id]?

/-- The running-minimum scan of `get_clusters`' inner anchor loop. -/
def closestScan (n : NodeInfo) : List NodeInfo → Option Int → Option Nat → Option Nat
  | [], _, best => best
  | m :: ms, curMin, best =>
    match dOf n m with
    | none => closestScan n ms curMin best
    | some d =>
      if oLT (some d) curMin then closestScan n ms (some d) (some m.id)
      else closestScan n ms curMin best

/-- `closest_mem_id` after the scan (`none` when no anchor is reachable).  The
Python key is `str(id)`; `Nat` ids are in bijection with those strings, and
every such string is truthy, matching `if closest_mem_id:`. -/
def closestMem (mems : List NodeInfo) (n : NodeInfo) : Option Nat :=
  closestScan n mems none none

/-- Spec-side chosen anchor: the first anchor in scan order that has a distance
entry and whose entry is minimal over all anchors (equidistant anchors thus
resolve to the first one encountered). -/
def specBest (mems : List NodeInfo) (n : NodeInfo) : Option NodeInfo :=
  mems.find? (fun a => (dOf n a).isSome && mems.all (fun b => oLE (dOf n a) (dOf n b)))

/-- Python dict insertion for the comprehension `{str(m.id): [m] for m in ...}`:
replace in place on a duplicate key, append new keys in first-seen order. -/
def dictInsert (k : Nat) (v : List NodeInfo) :
    List (Nat × List NodeInfo) → List (Nat × List NodeInfo)
  | [] => [(k, v)]
  | (k', v') :: rest =>
    if k' = k then (k', v) :: rest else (k', v') :: dictInsert k v rest

/-- `clusters[closest_mem_id].append(node)`. -/
def dictAppend (k : Nat) (n : NodeInfo) :
    List (Nat × List NodeInfo) → List (Nat × List NodeInfo)
  | [] => []
  | (k', v) :: rest =>
    if k' = k then (k', v ++ [n]) :: rest else (k', v) :: dictAppend k n rest

/-- `clusters = {str(mem_node.id): [mem_node] for mem_node in memory_nodes}`. -/
def dictSeed (mems : List NodeInfo) : List (Nat × List NodeInfo) :=
  mems.foldl (fun d m => dictInsert m.id [m] d) []

/-- One iteration of the non-anchor assignment loop. -/
def assignStep (mems : List NodeInfo) (d : List (Nat × List NodeInfo)) (n : NodeInfo) :
    List (Nat × List NodeInfo) :=
  if n.memory then d
  else
    match closestMem mems n with
    | some k => dictAppend k n d
    | none => d

/-- The whole non-anchor assignment loop. -/
def assignNodes (mems nodes : List NodeInfo) (d0 : List (Nat × List NodeInfo)) :
    List (Nat × List NodeInfo) :=
  nodes.foldl (assignStep mems) d0

/-- `cluster[1:] = sorted(cluster[1:], key=distance to the anchor, inf if
missing)` — Python's stable sort, modelled by stable insertion sort. -/
def sortCluster (cluster : List NodeInfo) : List NodeInfo :=
  match cluster with
  | [] => []
  | anchor :: rest =>
    anchor :: List.insertionSort (fun x y => oLE (dOf x anchor) (dOf y anchor)) rest

/-- `SystemTopology.get_clusters` over an already built `nodes` list at the
default `optimize_cache_level = -1` (the cache-optimizer branch is statically
skipped, as in the claims under verification). -/
def get_clusters (nodes : List NodeInfo) : List Cluster :=
  if nodes.isEmpty then []
  else if (nodes.filter (·.memory)).isEmpty then [nodes]
  else
    (assignNodes (nodes.filter (·.memory)) nodes (dictSeed (nodes.filter (·.memory)))).map
      (fun kv => sortCluster kv.2)

/-- The warnings printed by `get_clusters`: only the degenerate no-memory case
prints one; in particular a node dropped for having no distance entry to any
anchor is skipped silently. -/
def get_clusters_warnings (nodes : List NodeInfo) : List String :=
  if nodes.isEmpty then []
  else if (nodes.filter (·.memory)).isEmpty then ["Warning: No memory nodes found!"]
  else []

/-- `find?`-based lookup of the first entry with key `k`, as the dict does. -/
def lookupD (d : List (Nat × List NodeInfo)) (k : Nat) : Option (List NodeInfo) :=
  (d.find? (fun kv => kv.1 == k)).map (·.2)

/-- Invariant of the assignment dict: every stored node is either an anchor or
a node for which the scan found a nearest anchor. -/
def dInv (mems : List NodeInfo) (d : List (Nat × List NodeInfo)) : Prop :=
  ∀ kv ∈ d, ∀ x ∈ kv.2, x.memory = true ∨ (closestMem mems x).isSome

/-! ## Theorems -/

theorem flatMap_toList_eq_filterMap {α β : Type} (l : List α) (f : α → Option β) :
    l.flatMap (fun x => (f x).toList) = l.filterMap f := by
  induction l with
  | nil => rfl
  | cons a l ih => cases h : f a <;> simp [List.filterMap_cons, h, ih]

theorem flatMap_congr_mem {α β : Type} {l : List α} {f g : α → List β}
    (h : ∀ a ∈ l, f a = g a) : l.flatMap f = l.flatMap g := by
  induction l with
  | nil => rfl
  | cons a l ih =>
    simp only [List.flatMap_cons, h a (List.mem_cons_self a l),
      ih (fun x hx => h x (List.mem_cons_of_mem a hx))]

theorem flatMap_append_perm {α β : Type} (l : List α) (f g : α → List β) :
    (l.flatMap fun x => f x ++ g x).Perm (l.flatMap f ++ l.flatMap g) := by
  induction l with
  | nil => exact List.Perm.refl []
  | cons a l ih =>
    simp only [List.flatMap_cons, List.append_assoc]
    exact ((ih.append_left (g a)).trans
      (List.perm_append_comm_assoc (g a) (l.flatMap f) (l.flatMap g))).append_left (f a)

theorem flatMap_swap_perm {α β γ : Type} (l₁ : List α) (l₂ : List β) (f : α → β → List γ) :
    (l₁.flatMap fun a => l₂.flatMap fun b => f a b).Perm
      (l₂.flatMap fun b => l₁.flatMap fun a => f a b) := by
  induction l₁ with
  | nil => simp
  | cons a l ih =>
    simp only [List.flatMap_cons]
    exact (ih.append_left (l₂.flatMap fun b => f a b)).trans
      (flatMap_append_perm l₂ (fun b => f a b) (fun b => l.flatMap fun a' => f a' b)).symm

theorem range_filterMap_getElem {α : Type} (l : List α) :
    ∀ n, (List.range n).filterMap (fun i => l[i]?) = l.take n := by
  intro n
  induction n with
  | zero => simp
  | succ n ih =>
    rw [List.range_succ, List.filterMap_append, ih, List.take_succ]
    cases h : l[n]? <;> simp [h]

theorem foldl_max_init_le (l : List (List Int)) :
    ∀ a : Nat, a ≤ l.foldl (fun a c => max a c.length) a := by
  induction l with
  | nil => intro a; exact Nat.le_refl a
  | cons c l ih =>
    intro a
    exact le_trans (Nat.le_max_left a c.length) (ih _)

theorem length_le_foldl_max (l : List (List Int)) :
    ∀ (a : Nat) (c : List Int), c ∈ l → c.length ≤ l.foldl (fun a c => max a c.length) a := by
  induction l with
  | nil => intro a c hc; cases hc
  | cons d l ih =>
    intro a c hc
    rw [List.foldl_cons]
    rcases List.mem_cons.mp hc with h | h
    · subst h
      exact le_trans (Nat.le_max_right a c.length) (foldl_max_init_le l _)
    · exact ih _ c h

theorem length_le_maxSmt {clusters : List Cluster} {c : List Int}
    (hc : c ∈ allCores clusters) : c.length ≤ maxSmt clusters :=
  length_le_foldl_max _ 0 c hc

theorem emitNode_eq_filterMap (smt : Nat) (node : NodeInfo) :
    emitNode smt node = node.cores_list.filterMap (fun core => core[smt]?) :=
  flatMap_toList_eq_filterMap node.cores_list (fun core => core[smt]?)

theorem cluster_first_eq_spec_of_guard (node0 : NodeInfo) (rest : List Cluster) (tail : Cluster)
    (hcores : ¬node0.cores_list.isEmpty) :
    cluster_first_pinning ((node0 :: tail) :: rest) = clusterFirstSpec ((node0 :: tail) :: rest) := by
  rw [cluster_first_pinning, if_neg hcores, clusterFirstSpec]
  congr 1
  funext smt
  congr 1
  funext cluster
  congr 1
  funext node
  exact emitNode_eq_filterMap smt node

theorem allCores_eq_nil (clusters : List Cluster)
    (hall : ∀ cluster ∈ clusters, ∀ node ∈ cluster, node.cores_list = []) :
    allCores clusters = [] := by
  unfold allCores
  rw [List.flatMap_eq_nil_iff]
  intro cluster hcluster
  rw [List.flatMap_eq_nil_iff]
  intro node hnode
  exact hall cluster hcluster node hnode

/-- C1 counterexample: with an empty first cluster followed by a cluster whose
node does have a non-empty core tuple, the code returns `[]` while the spec's
iteration formula yields the second cluster's id.  The claim as stated (for every
input in which every referenced node has a non-empty core tuple) is therefore
false. -/
theorem claim_C1_counterexample :
    cluster_first_pinning [[], [⟨0, true, [[5]], []⟩]] = [] ∧
      clusterFirstSpec [[], [⟨0, true, [[5]], []⟩]] = [5] ∧
      ([] : List Int) ≠ [5] := by
  refine ⟨rfl, ?_, by decide⟩
  decide

/-- C1 (amended): for every clusters input in which every referenced node has at
least one non-empty core tuple and whose first cluster (if any) is non-empty,
`cluster_first_pinning` returns exactly the sequence prescribed by the spec:
`smt_pos` from `0` to `S-1` outermost, then clusters, nodes and core tuples in
order, appending the tuple's `smt_pos`-th id whenever it is wide enough. -/
theorem claim_C1_cluster_first_matches_spec (clusters : List Cluster)
    (hcore : ∀ cluster ∈ clusters, ∀ node ∈ cluster, ∃ t ∈ node.cores_list, t ≠ [])
    (hfirst : clusters.head? ≠ some ([] : Cluster)) :
    cluster_first_pinning clusters = clusterFirstSpec clusters := by
  match clusters with
  | [] => rfl
  | cluster0 :: rest =>
    match cluster0, hfirst with
    | [], hfirst => exact absurd (rfl : ([] :: rest).head? = some []) hfirst
    | node0 :: tail, _ =>
      apply cluster_first_eq_spec_of_guard
      obtain ⟨t, ht, htne⟩ :=
        hcore (node0 :: tail) (List.mem_cons_self _ _) node0 (List.mem_cons_self _ _)
      simp only [List.isEmpty_iff]
      intro hnil
      rw [hnil] at ht
      exact absurd ht (List.not_mem_nil t)

/-- Witness for C1's amended theorem at a concrete two-core input. -/
theorem claim_C1_witness :
    (∀ cluster ∈ [[(⟨0, false, [[3, 4], [7]], []⟩ : NodeInfo)]],
        ∀ node ∈ cluster, ∃ t ∈ node.cores_list, t ≠ []) ∧
      cluster_first_pinning [[⟨0, false, [[3, 4], [7]], []⟩]] =
        clusterFirstSpec [[⟨0, false, [[3, 4], [7]], []⟩]] :=
  ⟨by decide, claim_C1_cluster_first_matches_spec _ (by decide) (by decide)⟩

/-- C10: whenever the first cluster's first node has an empty core-tuple list,
`cluster_first_pinning` returns `[]`, regardless of the other nodes. -/
theorem claim_C10_first_node_empty_short_circuit (clusters : List Cluster)
    (node0 : NodeInfo) (tail : Cluster) (rest : List Cluster)
    (hshape : clusters = (node0 :: tail) :: rest) (hempty : node0.cores_list = []) :
    cluster_first_pinning clusters = [] := by
  subst hshape
  simp [cluster_first_pinning, hempty]

/-- Witness for C10: the second cluster has a non-empty core tuple, yet the
result is empty. -/
theorem claim_C10_witness :
    cluster_first_pinning [[⟨0, false, [], []⟩], [⟨1, false, [[9]], []⟩]] = [] :=
  claim_C10_first_node_empty_short_circuit _ _ _ _ rfl rfl

/-- C4 counterexample: on a non-empty clusters input with no core tuples at all,
`ping_pong_pinning` does not return an empty sequence — it raises a `ValueError`
from `max()` over an empty generator (modelled as `none`), while
`cluster_first_pinning` does return `[]`. -/
theorem claim_C4_counterexample :
    ping_pong_pinning [[⟨0, true, [], [10]⟩]] 1 = none ∧
      cluster_first_pinning [[⟨0, true, [], [10]⟩]] = [] := by
  constructor
  · decide
  · rfl

/-- C4 (amended): for every non-empty clusters input in which every node's
core-tuple list is empty and every positive `nodes_per_round`,
`cluster_first_pinning` returns the empty sequence, while `ping_pong_pinning`
raises a `ValueError` (modelled as `none`) instead of returning. -/
theorem claim_C4_empty_core_set (clusters : List Cluster) (npr : Int)
    (hne : clusters ≠ [])
    (hall : ∀ cluster ∈ clusters, ∀ node ∈ cluster, node.cores_list = [])
    (hnpr : 0 < npr) :
    cluster_first_pinning clusters = [] ∧ ping_pong_pinning clusters npr = none := by
  constructor
  · match clusters with
    | [] :: rest => rfl
    | (node0 :: tail) :: rest =>
      have h0 : node0.cores_list = [] :=
        hall _ (List.mem_cons_self _ _) _ (List.mem_cons_self _ _)
      simp [cluster_first_pinning, h0]
  · rw [ping_pong_pinning, if_neg, if_pos]
    · simp [allCores_eq_nil clusters hall]
    · rw [not_or]
      exact ⟨by simpa [List.isEmpty_iff] using hne, by omega⟩

/-- Witness for C4's amended theorem. -/
theorem claim_C4_witness :
    cluster_first_pinning [[⟨0, true, [], [10]⟩], [⟨1, false, [], []⟩]] = [] ∧
      ping_pong_pinning [[⟨0, true, [], [10]⟩], [⟨1, false, [], []⟩]] 2 = none :=
  claim_C4_empty_core_set _ 2 (by decide) (by decide) (by decide)

theorem pingInner_eq (smt : Nat) (cluster : Cluster) :
    ∀ npr p, pingInner smt cluster npr p =
      (((cluster.drop p).take npr).flatMap (emitNode smt),
        p + min npr (cluster.length - p)) := by
  intro npr
  induction npr with
  | zero => intro p; simp [pingInner]
  | succ n ih =>
    intro p
    rw [pingInner]
    cases h : cluster[p]? with
    | none =>
      have hlen : cluster.length ≤ p := List.getElem?_eq_none_iff.mp h
      have hdrop : cluster.drop p = [] := List.drop_eq_nil_of_le hlen
      have hmin : min (n + 1) (cluster.length - p) = 0 := by omega
      simp [hdrop, hmin]
    | some node =>
      have hlt : p < cluster.length := by
        by_contra hc
        push_neg at hc
        rw [List.getElem?_eq_none_iff.mpr hc] at h
        cases h
      have hnode : cluster[p] = node := by
        have := List.getElem?_eq_getElem hlt
        rw [h] at this
        injection this with this
        exact this.symm
      have hdrop : cluster.drop p = node :: cluster.drop (p + 1) := by
        rw [List.drop_eq_getElem_cons hlt, hnode]
      rw [ih (p + 1)]
      simp only [hdrop, List.take_succ_cons, List.flatMap_cons, Prod.mk.injEq]
      refine ⟨trivial, ?_⟩
      omega

theorem anyRemaining_eq (clusters : List Cluster) :
    ∀ positions, anyRemaining clusters positions =
      !((stateOf clusters positions).all List.isEmpty) := by
  induction clusters with
  | nil => intro ps; cases ps <;> rfl
  | cons cl cls ih =>
    intro ps
    cases ps with
    | nil => rfl
    | cons p ps' =>
      have hb : decide (p < cl.length) = !(cl.drop p).isEmpty := by
        by_cases hp : p < cl.length
        · have hne : cl.drop p ≠ [] := by
            rw [ne_eq, List.drop_eq_nil_iff]
            omega
          simp [hp, List.isEmpty_iff, hne]
        · have hnil : cl.drop p = [] := List.drop_eq_nil_of_le (by omega)
          simp [hp, hnil]
      simp only [anyRemaining, stateOf, List.zip_cons_cons, List.any_cons, List.all_cons,
        List.zipWith_cons_cons, Bool.not_and]
      rw [← anyRemaining, ih ps', hb]
      rfl

theorem pingRound_fst (npr smt : Nat) :
    ∀ (clusters : List Cluster) (ps : List Nat),
      (pingRound npr smt clusters ps).1 =
        (specRoundVisits npr (stateOf clusters ps)).flatMap (emitNode smt) := by
  intro clusters
  induction clusters with
  | nil => intro ps; cases ps <;> rfl
  | cons cl cls ih =>
    intro ps
    cases ps with
    | nil => rfl
    | cons p ps' =>
      simp only [pingRound, pingInner_eq, stateOf, List.zipWith_cons_cons, specRoundVisits,
        List.flatMap_cons, List.flatMap_append]
      rw [← stateOf, ← specRoundVisits, ih ps']

theorem pingRound_snd (npr smt : Nat) :
    ∀ (clusters : List Cluster) (ps : List Nat),
      stateOf clusters (pingRound npr smt clusters ps).2 =
        specAdvance npr (stateOf clusters ps) := by
  intro clusters
  induction clusters with
  | nil => intro ps; cases ps <;> rfl
  | cons cl cls ih =>
    intro ps
    cases ps with
    | nil => rfl
    | cons p ps' =>
      simp only [pingRound, pingInner_eq, stateOf, List.zipWith_cons_cons, specAdvance,
        List.map_cons]
      rw [← stateOf, ← specAdvance, ih ps']
      congr 1
      rw [List.drop_drop]
      rcases Nat.le_total npr (cl.length - p) with hle | hle
      · rw [Nat.min_eq_left hle, Nat.add_comm p npr]
      · rw [Nat.min_eq_right hle, List.drop_eq_nil_of_le (by omega),
          List.drop_eq_nil_of_le (by omega)]

theorem pingWhile_eq_spec (npr smt : Nat) (clusters : List Cluster) :
    ∀ fuel ps, pingWhile npr smt clusters fuel ps =
      (specVisitOrder npr fuel (stateOf clusters ps)).flatMap (emitNode smt) := by
  intro fuel
  induction fuel with
  | zero => intro ps; rfl
  | succ n ih =>
    intro ps
    rw [pingWhile, specVisitOrder]
    by_cases h : anyRemaining clusters ps
    · rw [if_pos h]
      have hall : ¬((stateOf clusters ps).all List.isEmpty = true) := by
        rw [anyRemaining_eq] at h
        simp only [Bool.not_eq_true'] at h
        simp [h]
      rw [if_neg hall]
      show (pingRound npr smt clusters ps).1 ++
          pingWhile npr smt clusters n (pingRound npr smt clusters ps).2 = _
      rw [List.flatMap_append, pingRound_fst, ih, pingRound_snd]
    · rw [if_neg h]
      have hall : (stateOf clusters ps).all List.isEmpty = true := by
        rw [anyRemaining_eq] at h
        simpa using h
      rw [if_pos hall]
      rfl

theorem stateOf_replicate_zero (clusters : List Cluster) :
    stateOf clusters (List.replicate clusters.length 0) = clusters := by
  induction clusters with
  | nil => rfl
  | cons cl cls ih =>
    simp only [stateOf, List.length_cons, List.replicate_succ, List.zipWith_cons_cons,
      List.drop_zero]
    rw [← stateOf, ih]

/-- The derivation shared by the ping-pong claims: under the guard conditions
the embedded `ping_pong_pinning` computes the spec-side round description. -/
theorem ping_pong_eq_some_spec (clusters : List Cluster) (npr : Int)
    (hcores : allCores clusters ≠ []) (hnpr : 0 < npr) :
    ping_pong_pinning clusters npr = some (pingPongSpec clusters npr.toNat) := by
  have hcl : clusters ≠ [] := by
    intro h
    subst h
    exact hcores rfl
  have g1 : ¬(clusters.isEmpty = true ∨ npr ≤ 0) := by
    rw [not_or]
    exact ⟨by simpa [List.isEmpty_iff] using hcl, by omega⟩
  have g2 : ¬((allCores clusters).isEmpty = true) := by
    simpa [List.isEmpty_iff] using hcores
  rw [ping_pong_pinning, if_neg g1, if_neg g2, pingPongSpec]
  congr 1
  exact flatMap_congr_mem (fun smt _ => by rw [pingWhile_eq_spec, stateOf_replicate_zero])

/-- C2: for every clusters input with at least one core tuple and every positive
`nodes_per_round`, `ping_pong_pinning` returns exactly the sequence prescribed
by the spec's cursor/round description; moreover with `nodes_per_round = 1` on
two clusters of two nodes each, the per-SMT-slot node visit order is
`[cluster0.node0, cluster1.node0, cluster0.node1, cluster1.node1]`. -/
theorem claim_C2_ping_pong_matches_spec (clusters : List Cluster) (npr : Int)
    (hcores : allCores clusters ≠ []) (hnpr : 0 < npr) :
    ping_pong_pinning clusters npr = some (pingPongSpec clusters npr.toNat) ∧
      ∀ a b c d : NodeInfo,
        specVisitOrder 1 (totalNodes [[a, b], [c, d]] + 1) [[a, b], [c, d]] = [a, c, b, d] :=
  ⟨ping_pong_eq_some_spec clusters npr hcores hnpr, fun _ _ _ _ => rfl⟩

/-- Witness for C2 on a concrete two-cluster topology. -/
theorem claim_C2_witness :
    allCores [[⟨0, true, [[0, 4]], []⟩, ⟨1, false, [[1]], []⟩],
        [⟨2, true, [[2]], []⟩, ⟨3, false, [[3]], []⟩]] ≠ [] ∧
      ping_pong_pinning [[⟨0, true, [[0, 4]], []⟩, ⟨1, false, [[1]], []⟩],
          [⟨2, true, [[2]], []⟩, ⟨3, false, [[3]], []⟩]] 1 =
        some (pingPongSpec [[⟨0, true, [[0, 4]], []⟩, ⟨1, false, [[1]], []⟩],
          [⟨2, true, [[2]], []⟩, ⟨3, false, [[3]], []⟩]] 1) :=
  ⟨by decide, (claim_C2_ping_pong_matches_spec _ 1 (by decide) (by decide)).1⟩

theorem totalNodes_advance_le (npr : Nat) (state : List Cluster) :
    totalNodes (specAdvance npr state) ≤ totalNodes state := by
  induction state with
  | nil => exact Nat.le_refl _
  | cons rem rest ih =>
    simp only [specAdvance, totalNodes, List.map_cons, List.map_map, List.sum_cons] at *
    have hd : (rem.drop npr).length = rem.length - npr := List.length_drop npr rem
    omega

theorem totalNodes_advance_lt (npr : Nat) (state : List Cluster) (hnpr : 1 ≤ npr)
    (h : ¬(state.all List.isEmpty = true)) :
    totalNodes (specAdvance npr state) < totalNodes state := by
  induction state with
  | nil => simp at h
  | cons rem rest ih =>
    cases rem with
    | nil =>
      have hrest : ¬(rest.all List.isEmpty = true) := by
        simpa [List.all_cons] using h
      have := ih hrest
      simp only [specAdvance, totalNodes, List.map_cons, List.sum_cons,
        List.drop_nil, List.length_nil] at *
      omega
    | cons x xs =>
      have hle := totalNodes_advance_le npr rest
      have hd : ((x :: xs).drop npr).length = (x :: xs).length - npr :=
        List.length_drop npr (x :: xs)
      simp only [specAdvance, totalNodes, List.map_cons, List.sum_cons,
        List.length_cons] at *
      omega

theorem specVisitOrder_perm_flatten (npr : Nat) (hnpr : 1 ≤ npr) :
    ∀ (fuel : Nat) (state : List Cluster), totalNodes state ≤ fuel →
      (specVisitOrder npr fuel state).Perm state.flatten := by
  intro fuel
  induction fuel with
  | zero =>
    intro state hle
    have hlen : state.flatten.length = 0 := by
      rw [List.length_flatten]
      have : totalNodes state = 0 := Nat.le_zero.mp hle
      simpa [totalNodes] using this
    rw [List.length_eq_zero] at hlen
    rw [hlen]
    exact List.Perm.refl _
  | succ n ih =>
    intro state hle
    rw [specVisitOrder]
    by_cases h : state.all List.isEmpty = true
    · rw [if_pos h]
      have : state.flatten = [] := by
        rw [List.flatten_eq_nil_iff]
        intro l hl
        exact List.isEmpty_iff.mp (List.all_eq_true.mp h l hl)
      rw [this]
    · rw [if_neg h]
      have hflat : state.flatten.Perm
          (specRoundVisits npr state ++ (specAdvance npr state).flatten) := by
        have h1 : state.flatten = state.flatMap (fun rem => rem.take npr ++ rem.drop npr) := by
          rw [List.flatten_eq_flatMap]
          exact flatMap_congr_mem (fun rem _ => (List.take_append_drop npr rem).symm)
        have h2 := flatMap_append_perm state (fun rem => rem.take npr) (fun rem => rem.drop npr)
        rw [h1]
        refine h2.trans ?_
        have h3 : (specAdvance npr state).flatten = state.flatMap (fun rem => rem.drop npr) := by
          rw [specAdvance, ← List.flatMap_def]
        rw [h3]
        exact List.Perm.refl _
      have hrec := ih (specAdvance npr state)
        (by have := totalNodes_advance_lt npr state hnpr h; omega)
      exact (hrec.append_left (specRoundVisits npr state)).trans hflat.symm

theorem cluster_first_body_allCores (clusters : List Cluster) (smt : Nat) :
    clusters.flatMap (fun cluster => cluster.flatMap (fun node => emitNode smt node)) =
      (allCores clusters).flatMap (fun core => (core[smt]?).toList) := by
  rw [allCores, List.flatMap_assoc]
  apply flatMap_congr_mem
  intro cluster _
  rw [List.flatMap_assoc]
  rfl

theorem cluster_first_body_flatten (clusters : List Cluster) (smt : Nat) :
    clusters.flatMap (fun cluster => cluster.flatMap (fun node => emitNode smt node)) =
      (clusters.flatten).flatMap (emitNode smt) := by
  rw [List.flatten_eq_flatMap, List.flatMap_assoc]
  rfl

theorem cluster_first_perm_flatten_cores (clusters : List Cluster) (node0 : NodeInfo)
    (tail : Cluster) (rest : List Cluster)
    (hshape : clusters = (node0 :: tail) :: rest) (hne : node0.cores_list ≠ []) :
    (cluster_first_pinning clusters).Perm (allCores clusters).flatten := by
  have hguard : ¬node0.cores_list.isEmpty := by
    simpa [List.isEmpty_iff] using hne
  have hbody : cluster_first_pinning clusters =
      (List.range (maxSmt clusters)).flatMap (fun smt =>
        (allCores clusters).flatMap (fun core => (core[smt]?).toList)) := by
    subst hshape
    rw [cluster_first_pinning, if_neg hguard]
    exact flatMap_congr_mem (fun smt _ => cluster_first_body_allCores _ smt)
  rw [hbody]
  refine (flatMap_swap_perm (List.range (maxSmt clusters)) (allCores clusters)
    (fun smt core => (core[smt]?).toList)).trans ?_
  have hpt : ∀ core ∈ allCores clusters,
      ((List.range (maxSmt clusters)).flatMap fun smt => (core[smt]?).toList) = core := by
    intro core hcore
    rw [flatMap_toList_eq_filterMap, range_filterMap_getElem]
    exact List.take_of_length_le (length_le_maxSmt hcore)
  rw [flatMap_congr_mem hpt]
  have hid : ((allCores clusters).flatMap fun core => core) = (allCores clusters).flatten :=
    List.flatMap_id _
  rw [hid]

/-- C9: on any clusters input with at least one non-empty core tuple, whose first
cluster's first node has a non-empty core list, and any positive
`nodes_per_round`, the two generators return permutations of the same multiset:
each core tuple contributes its `smt_pos`-th element exactly once for every
`smt_pos` below its width (the flattened aggregate core list). -/
theorem claim_C9_generators_same_multiset (clusters : List Cluster) (npr : Int)
    (node0 : NodeInfo) (tail : Cluster) (rest : List Cluster)
    (hshape : clusters = (node0 :: tail) :: rest)
    (hne : node0.cores_list ≠ [])
    (hsome : ∃ t ∈ allCores clusters, t ≠ [])
    (hnpr : 0 < npr) :
    ∃ l, ping_pong_pinning clusters npr = some l ∧
      l.Perm (cluster_first_pinning clusters) ∧
      (cluster_first_pinning clusters).Perm (allCores clusters).flatten := by
  have hac : allCores clusters ≠ [] := by
    intro hnil
    rw [allCores, List.flatMap_eq_nil_iff] at hnil
    have h1 := hnil (node0 :: tail) (by rw [hshape]; exact List.mem_cons_self _ _)
    rw [List.flatMap_eq_nil_iff] at h1
    exact hne (h1 node0 (List.mem_cons_self _ _))
  have hguard : ¬node0.cores_list.isEmpty := by
    simpa [List.isEmpty_iff] using hne
  refine ⟨pingPongSpec clusters npr.toNat, ping_pong_eq_some_spec clusters npr hac hnpr, ?_, ?_⟩
  · have hcf : cluster_first_pinning clusters =
        (List.range (maxSmt clusters)).flatMap (fun smt =>
          (clusters.flatten).flatMap (emitNode smt)) := by
      subst hshape
      rw [cluster_first_pinning, if_neg hguard]
      exact flatMap_congr_mem (fun smt _ => cluster_first_body_flatten _ smt)
    rw [hcf, pingPongSpec]
    apply List.Perm.flatMap_left
    intro smt _
    have hvisit : (specVisitOrder npr.toNat (totalNodes clusters + 1) clusters).Perm
        clusters.flatten :=
      specVisitOrder_perm_flatten npr.toNat (by omega) _ clusters (by omega)
    exact hvisit.flatMap_right (emitNode smt)
  · exact cluster_first_perm_flatten_cores clusters node0 tail rest hshape hne

/-- Witness for C9 on a concrete two-cluster topology with mixed SMT widths. -/
theorem claim_C9_witness :
    (∃ l, ping_pong_pinning [[⟨0, true, [[0, 2], [4]], []⟩], [⟨1, false, [[1, 3]], []⟩]] 1 =
        some l ∧
      l.Perm (cluster_first_pinning [[⟨0, true, [[0, 2], [4]], []⟩], [⟨1, false, [[1, 3]], []⟩]]) ∧
      (cluster_first_pinning [[⟨0, true, [[0, 2], [4]], []⟩], [⟨1, false, [[1, 3]], []⟩]]).Perm
        (allCores [[⟨0, true, [[0, 2], [4]], []⟩], [⟨1, false, [[1, 3]], []⟩]]).flatten) :=
  claim_C9_generators_same_multiset _ 1 _ _ _ rfl (by decide) (by decide) (by decide)

/-- C6 counterexample: on a siblings file containing a non-numeric token,
`_get_cpus_logical_ids` raises `ValueError` (only `IOError` and
`FileNotFoundError` are caught) instead of returning an empty list, so the
helpers do not absorb every parse failure. -/
theorem claim_C6_counterexample :
    _get_cpus_logical_ids fsBadToken 0 = .error .valueError ∧
      _get_cpus_logical_ids fsBadToken 0 ≠ .ok [] := by
  constructor
  · decide
  · decide

/-- C6 (amended): the helpers return the parsed value, or an empty list, on
read failures (missing file, permission error), and never raise for those; but
on empty content or a non-numeric token `int()`'s `ValueError` escapes the
helper (to be caught only by higher layers), and that is the only way they
fail. -/
theorem claim_C6_attribute_reader_boundary (fs : SysFS) (i : Int) :
    (fs.thread_siblings_list i = none → _get_cpus_logical_ids fs i = .ok []) ∧
    (∀ s xs, fs.thread_siblings_list i = some s →
      mapOption pyIntTok (splitOnChar ',' (stripChars s.data)) = some xs →
      _get_cpus_logical_ids fs i = .ok xs) ∧
    (∀ s, fs.thread_siblings_list i = some s →
      mapOption pyIntTok (splitOnChar ',' (stripChars s.data)) = none →
      _get_cpus_logical_ids fs i = .error .valueError) ∧
    (fs.cache_index_dirs i = none → _get_cache_info fs i = .ok []) ∧
    (∀ e, _get_cpus_logical_ids fs i = .error e →
      e = .valueError ∧ ∃ s, fs.thread_siblings_list i = some s ∧
        mapOption pyIntTok (splitOnChar ',' (stripChars s.data)) = none) := by
  refine ⟨?_, ?_, ?_, ?_, ?_⟩
  · intro h
    simp [_get_cpus_logical_ids, h]
  · intro s xs hs hparse
    simp [_get_cpus_logical_ids, hs, hparse]
  · intro s hs hparse
    simp [_get_cpus_logical_ids, hs, hparse]
  · intro h
    simp [_get_cache_info, h]
  · intro e he
    cases hs : fs.thread_siblings_list i with
    | none =>
      simp only [_get_cpus_logical_ids, hs] at he
      exact Except.noConfusion he
    | some s =>
      cases hp : mapOption pyIntTok (splitOnChar ',' (stripChars s.data)) with
      | none =>
        exact ⟨by cases e; rfl, s, rfl, hp⟩
      | some xs =>
        simp only [_get_cpus_logical_ids, hs, hp] at he
        exact Except.noConfusion he

/-- Witness for C6's amended theorem on a filesystem with one good and one
missing siblings file. -/
theorem claim_C6_witness :
    _get_cpus_logical_ids fsMixed 1 = .ok [] ∧
      _get_cpus_logical_ids fsMixed 0 = .ok [0, 4] ∧
      _get_cache_info fsMixed 0 = .ok [] :=
  ⟨(claim_C6_attribute_reader_boundary fsMixed 1).1 (by decide),
    (claim_C6_attribute_reader_boundary fsMixed 0).2.1 "0,4" [0, 4] (by decide) (by decide),
    (claim_C6_attribute_reader_boundary fsMixed 0).2.2.2.1 (by decide)⟩

theorem buildCores_ok (fs : SysFS) (lvl : Nat) :
    ∀ (cores : List (List Int)) (recs : List CacheRecord),
      buildCores fs lvl cores = .ok recs →
      recs.map (·.core_tuple) = cores.filter (keepsTuple fs lvl) ∧
        ∀ r ∈ recs, recWellFormed fs lvl r := by
  intro cores
  induction cores with
  | nil =>
    intro recs h
    rw [buildCores] at h
    injection h with h
    subst h
    exact ⟨rfl, fun r hr => absurd hr (List.not_mem_nil r)⟩
  | cons core_tuple rest ih =>
    intro recs h
    match core_tuple with
    | [] =>
      rw [buildCores] at h
      obtain ⟨h1, h2⟩ := ih recs h
      refine ⟨?_, h2⟩
      rw [List.filter_cons_of_neg (by simp [keepsTuple]), h1]
    | c0 :: t =>
      rw [buildCores] at h
      cases hc : _get_cache_info fs c0 with
      | error e =>
        simp only [hc] at h
        exact Except.noConfusion h
      | ok cache_ids =>
        simp only [hc] at h
        by_cases hskip : cache_ids.isEmpty ∨ cache_ids.length ≤ lvl
        · rw [if_pos hskip] at h
          obtain ⟨h1, h2⟩ := ih recs h
          refine ⟨?_, h2⟩
          have hkeep : keepsTuple fs lvl (c0 :: t) = false := by
            rw [keepsTuple, hc]
            rcases hskip with hsk | hsk
            · rw [List.isEmpty_iff] at hsk
              simp [hsk]
            · simp
              omega
          rw [List.filter_cons_of_neg (by simp [hkeep]), h1]
        · rw [if_neg hskip] at h
          cases hrec : buildCores fs lvl rest with
          | error e =>
            simp only [hrec] at h
            exact Except.noConfusion h
          | ok recs' =>
            simp only [hrec, Except.ok.injEq] at h
            subst h
            obtain ⟨h1, h2⟩ := ih recs' hrec
            have hkeep : keepsTuple fs lvl (c0 :: t) = true := by
              rw [keepsTuple, hc]
              rw [not_or, not_le] at hskip
              simp [hskip.2]
            constructor
            · rw [List.map_cons, List.filter_cons_of_pos (by simp [hkeep]), h1]
            · intro r hr
              rcases List.mem_cons.mp hr with hr | hr
              · subst hr
                rw [not_or, not_le] at hskip
                exact ⟨c0, t, cache_ids, rfl, hc, hskip.2, rfl, rfl⟩
              · exact h2 r hr

theorem buildCores_isOk (fs : SysFS) (lvl : Nat) :
    ∀ cores : List (List Int),
      (∀ t ∈ cores, ∀ c0 rest, t = c0 :: rest → ∃ ids, _get_cache_info fs c0 = .ok ids) →
      ∃ recs, buildCores fs lvl cores = .ok recs := by
  intro cores
  induction cores with
  | nil => intro _; exact ⟨[], rfl⟩
  | cons core_tuple rest ih =>
    intro h
    have hrest := ih (fun t ht c0 r he => h t (List.mem_cons_of_mem _ ht) c0 r he)
    match core_tuple with
    | [] =>
      obtain ⟨recs, hrec⟩ := hrest
      exact ⟨recs, by rw [buildCores]; exact hrec⟩
    | c0 :: t =>
      obtain ⟨ids, hids⟩ := h (c0 :: t) (List.mem_cons_self _ _) c0 t rfl
      obtain ⟨recs, hrec⟩ := hrest
      by_cases hskip : ids.isEmpty ∨ ids.length ≤ lvl
      · refine ⟨recs, ?_⟩
        simp only [buildCores, hids]
        rw [if_pos hskip]
        exact hrec
      · refine ⟨⟨c0 :: t, ids.getD lvl 0, c0⟩ :: recs, ?_⟩
        simp only [buildCores, hids]
        rw [if_neg hskip]
        simp only [hrec]

theorem tupleCacheKey_of_wf (fs : SysFS) (lvl : Nat) (r : CacheRecord)
    (h : recWellFormed fs lvl r) :
    tupleCacheKey fs lvl r.core_tuple = (r.cache_id, r.first_logical_id) := by
  obtain ⟨c0, t, ids, h1, h2, h3, h4, h5⟩ := h
  rw [tupleCacheKey, h1]
  simp only [List.headD_cons, h2, h4, h5, Except.toOption, Option.getD_some]

/-- C5: for `cache_level < 0` the node is returned unchanged; for
`cache_level ≥ 0` (when every kept lookup succeeds, i.e. no `ValueError`) the
result's core list is exactly the original tuples whose first logical id yields
a cache-id list of length at least `cache_level+1` — others are silently
dropped — ordered ascending by the composite key (cache id at `cache_level`,
then first logical id), with all other node fields unchanged. -/
theorem claim_C5_cache_optimizer (fs : SysFS) (node : NodeInfo) (cache_level : Int) :
    (cache_level < 0 → optimize_cache_nodes fs node cache_level = .ok node) ∧
    (0 ≤ cache_level →
      (∀ t ∈ node.cores_list, ∀ c0 rest, t = c0 :: rest →
        ∃ ids, _get_cache_info fs c0 = .ok ids) →
      ∃ node', optimize_cache_nodes fs node cache_level = .ok node' ∧
        node'.id = node.id ∧ node'.memory = node.memory ∧ node'.distance = node.distance ∧
        node'.cores_list.Perm
          (node.cores_list.filter (keepsTuple fs cache_level.toNat)) ∧
        node'.cores_list.Pairwise (fun t1 t2 =>
          keyLE (tupleCacheKey fs cache_level.toNat t1) (tupleCacheKey fs cache_level.toNat t2))) := by
  constructor
  · intro h
    rw [optimize_cache_nodes, if_pos h]
  · intro hlvl hlook
    obtain ⟨recs, hrec⟩ := buildCores_isOk fs cache_level.toNat node.cores_list hlook
    obtain ⟨hmap, hwf⟩ := buildCores_ok fs cache_level.toNat node.cores_list recs hrec
    refine ⟨{ node with
        cores_list := (List.insertionSort cacheRecLE recs).map (·.core_tuple) },
      ?_, rfl, rfl, rfl, ?_, ?_⟩
    · rw [optimize_cache_nodes, if_neg (by omega)]
      simp only [hrec]
    · rw [← hmap]
      exact (List.perm_insertionSort cacheRecLE recs).map _
    · have hsorted := List.sorted_insertionSort cacheRecLE recs
      rw [List.pairwise_map]
      refine hsorted.imp_of_mem ?_
      intro r1 r2 h1 h2 hle
      have hk1 := tupleCacheKey_of_wf fs cache_level.toNat r1
        (hwf r1 ((List.perm_insertionSort cacheRecLE recs).mem_iff.mp h1))
      have hk2 := tupleCacheKey_of_wf fs cache_level.toNat r2
        (hwf r2 ((List.perm_insertionSort cacheRecLE recs).mem_iff.mp h2))
      rw [keyLE, hk1, hk2]
      exact hle

/-- Witness for C5: level 0 reorders `[[0], [2]]` by cache id, level `-1` is the
identity. -/
theorem claim_C5_witness :
    optimize_cache_nodes fsC5 ⟨0, false, [[0], [2]], []⟩ (-1) =
        .ok ⟨0, false, [[0], [2]], []⟩ ∧
      ∃ node', optimize_cache_nodes fsC5 ⟨0, false, [[0], [2]], []⟩ 0 = .ok node' ∧
        node'.id = 0 ∧ node'.memory = false ∧ node'.distance = [] ∧
        node'.cores_list.Perm
          (([[0], [2]] : List (List Int)).filter (keepsTuple fsC5 0)) ∧
        node'.cores_list.Pairwise (fun t1 t2 =>
          keyLE (tupleCacheKey fsC5 0 t1) (tupleCacheKey fsC5 0 t2)) :=
  ⟨(claim_C5_cache_optimizer fsC5 ⟨0, false, [[0], [2]], []⟩ (-1)).1 (by decide),
    (claim_C5_cache_optimizer fsC5 ⟨0, false, [[0], [2]], []⟩ 0).2 (by decide)
      (by
        intro t ht c0 rest heq
        rcases List.mem_cons.mp ht with rfl | ht2
        · injection heq with h1 h2
          subst h1
          exact ⟨[1], by decide⟩
        · rcases List.mem_cons.mp ht2 with rfl | ht3
          · injection heq with h1 h2
            subst h1
            exact ⟨[0], by decide⟩
          · exact absurd ht3 (List.not_mem_nil t))⟩

theorem dedupFirstGo_mem (x : List Int) :
    ∀ (l seen : List (List Int)), x ∈ dedupFirstGo seen l ↔ x ∈ l ∧ x ∉ seen := by
  intro l
  induction l with
  | nil => intro seen; simp [dedupFirstGo]
  | cons core rest ih =>
    intro seen
    rw [dedupFirstGo]
    by_cases hc : core ∈ seen
    · rw [if_pos hc, ih seen]
      constructor
      · rintro ⟨h1, h2⟩
        exact ⟨List.mem_cons_of_mem _ h1, h2⟩
      · rintro ⟨h1, h2⟩
        rcases List.mem_cons.mp h1 with rfl | h1
        · exact absurd hc h2
        · exact ⟨h1, h2⟩
    · rw [if_neg hc]
      constructor
      · intro hx
        rcases List.mem_cons.mp hx with rfl | hx
        · exact ⟨List.mem_cons_self _ _, hc⟩
        · obtain ⟨h1, h2⟩ := (ih (core :: seen)).mp hx
          exact ⟨List.mem_cons_of_mem _ h1,
            fun hs => h2 (List.mem_cons_of_mem _ hs)⟩
      · rintro ⟨h1, h2⟩
        rcases List.mem_cons.mp h1 with rfl | h1
        · exact List.mem_cons_self _ _
        · by_cases hxc : x = core
          · subst hxc
            exact List.mem_cons_self _ _
          · exact List.mem_cons_of_mem _ ((ih (core :: seen)).mpr
              ⟨h1, fun hs => (List.mem_cons.mp hs).elim hxc h2⟩)

theorem dedupFirstGo_nodup : ∀ (l seen : List (List Int)), (dedupFirstGo seen l).Nodup := by
  intro l
  induction l with
  | nil => intro seen; exact List.nodup_nil
  | cons core rest ih =>
    intro seen
    rw [dedupFirstGo]
    by_cases hc : core ∈ seen
    · rw [if_pos hc]
      exact ih seen
    · rw [if_neg hc]
      refine List.nodup_cons.mpr ⟨?_, ih (core :: seen)⟩
      intro hmem
      exact ((dedupFirstGo_mem core rest (core :: seen)).mp hmem).2 (List.mem_cons_self _ _)

theorem dedupFirst_mem (x : List Int) (l : List (List Int)) :
    x ∈ dedupFirst l ↔ x ∈ l := by
  rw [dedupFirst, dedupFirstGo_mem]
  simp

theorem dedupFirst_nodup (l : List (List Int)) : (dedupFirst l).Nodup :=
  dedupFirstGo_nodup l []

/-- The combinatorial heart of C7: with duplicate-free membership and
consistent sibling data, flattening the deduplicated non-empty sibling tuples
recovers exactly the members whose sibling list is non-empty. -/
theorem dedup_flatten_perm (cpus : List Int) (f : Int → List Int)
    (hnodup : cpus.Nodup)
    (hcons : ∀ c ∈ cpus, f c ≠ [] →
      c ∈ f c ∧ (f c).Nodup ∧ ∀ x ∈ f c, x ∈ cpus ∧ f x = f c) :
    (dedupFirst ((cpus.map f).filter (fun s => !s.isEmpty))).flatten.Perm
      (cpus.filter (fun c => !(f c).isEmpty)) := by
  have hkept : ∀ u, u ∈ (cpus.map f).filter (fun s => !s.isEmpty) ↔
      (∃ c ∈ cpus, f c = u) ∧ u ≠ [] := by
    intro u
    rw [List.mem_filter, List.mem_map]
    simp [List.isEmpty_iff]
  have hU : ∀ u, u ∈ dedupFirst ((cpus.map f).filter (fun s => !s.isEmpty)) ↔
      (∃ c ∈ cpus, f c = u) ∧ u ≠ [] := by
    intro u
    rw [dedupFirst_mem, hkept]
  have hUnodupEach : ∀ u ∈ dedupFirst ((cpus.map f).filter (fun s => !s.isEmpty)), u.Nodup := by
    intro u hu
    obtain ⟨⟨c, hc, hfc⟩, hne⟩ := (hU u).mp hu
    subst hfc
    exact (hcons c hc hne).2.1
  have hdisj : (dedupFirst ((cpus.map f).filter (fun s => !s.isEmpty))).Pairwise
      List.Disjoint := by
    refine (dedupFirst_nodup _).imp_of_mem ?_
    intro u v hu hv huv
    obtain ⟨⟨c, hc, hfc⟩, hneu⟩ := (hU u).mp hu
    obtain ⟨⟨d, hd, hfd⟩, hnev⟩ := (hU v).mp hv
    intro x hxu hxv
    have h1 := (hcons c hc (by rw [hfc]; exact hneu)).2.2 x (by rw [hfc]; exact hxu)
    have h2 := (hcons d hd (by rw [hfd]; exact hnev)).2.2 x (by rw [hfd]; exact hxv)
    rw [hfc] at h1
    rw [hfd] at h2
    exact huv (by rw [← h1.2, h2.2])
  have hflatnd : (dedupFirst ((cpus.map f).filter (fun s => !s.isEmpty))).flatten.Nodup :=
    List.nodup_flatten.mpr ⟨hUnodupEach, hdisj⟩
  have hrhsnd : (cpus.filter (fun c => !(f c).isEmpty)).Nodup := hnodup.filter _
  rw [List.perm_ext_iff_of_nodup hflatnd hrhsnd]
  intro x
  rw [List.mem_flatten, List.mem_filter]
  constructor
  · rintro ⟨u, hu, hxu⟩
    obtain ⟨⟨c, hc, hfc⟩, hne⟩ := (hU u).mp hu
    subst hfc
    have hx := (hcons c hc hne).2.2 x hxu
    refine ⟨hx.1, ?_⟩
    rw [hx.2]
    simpa [List.isEmpty_iff] using hne
  · rintro ⟨hx, hne⟩
    have hfx : f x ≠ [] := by
      intro hcontra
      rw [hcontra] at hne
      simp at hne
    refine ⟨f x, (hU (f x)).mpr ⟨⟨x, hx, rfl⟩, hfx⟩, (hcons x hx hfx).1⟩

theorem processNode_id (fs : SysFS) (mems : List Int) (i : Nat) (nd : NodeInfo)
    (h : processNode fs mems i = some nd) : nd.id = i := by
  rw [processNode] at h
  repeat' split at h
  any_goals exact Option.noConfusion h
  injection h with h
  subst h
  rfl

theorem mapOption_sib_eq (fs : SysFS) (cpus : List Int)
    (hok : ∀ c ∈ cpus, ∃ l, _get_cpus_logical_ids fs c = .ok l) :
    mapOption (fun core =>
        match _get_cpus_logical_ids fs core with
        | .error _ => none
        | .ok sibs => some sibs) cpus = some (cpus.map (sibOf fs)) := by
  induction cpus with
  | nil => rfl
  | cons c rest ih =>
    obtain ⟨l, hl⟩ := hok c (List.mem_cons_self _ _)
    have hrest := ih (fun x hx => hok x (List.mem_cons_of_mem _ hx))
    have hsib : sibOf fs c = l := by
      rw [sibOf, hl]
      rfl
    simp only [mapOption, hl, hrest, List.map_cons, hsib]

theorem processNode_fields (fs : SysFS) (mems : List Int) (i : Nat) (nd : NodeInfo)
    (h : processNode fs mems i = some nd)
    (raw : String) (cpus : List Int)
    (hraw : fs.cpulist i = some raw)
    (hcpus : pyCpulist (stripChars raw.data) = some cpus)
    (hok : ∀ c ∈ cpus, ∃ l, _get_cpus_logical_ids fs c = .ok l) :
    nd.cores_list = dedupFirst ((cpus.map (sibOf fs)).filter (fun s => !s.isEmpty)) := by
  rw [processNode, hraw] at h
  simp only [hcpus] at h
  cases hdist : fs.distance i with
  | none =>
    rw [hdist] at h
    exact Option.noConfusion h
  | some draw =>
    rw [hdist] at h
    cases hd : mapOption pyIntTok (splitWS (stripChars draw.data)) with
    | none =>
      simp only [hd] at h
      exact Option.noConfusion h
    | some distances =>
      simp only [hd, mapOption_sib_eq fs cpus hok, Option.some.injEq] at h
      subst h
      rfl

/-- Produced nodes come from `processNode` at their own id, and a node warning
is recorded only for an id whose `processNode` failed. -/
theorem get_nodes_info_mem (fs : SysFS) (nodes : List NodeInfo) (warns : List Warn)
    (h : get_nodes_info fs = .ok (nodes, warns)) :
    ∃ mems : List Int,
      (∀ nd ∈ nodes, processNode fs mems nd.id = some nd) ∧
      (∀ i, Warn.nodeInfo i ∈ warns → processNode fs mems i = none) := by
  have main : ∀ (mems : List Int) (warns0 : List Warn),
      (∀ i, Warn.nodeInfo i ∉ warns0) →
      get_nodes_info_nodes fs mems warns0 = .ok (nodes, warns) →
      (∀ nd ∈ nodes, processNode fs mems nd.id = some nd) ∧
      (∀ i, Warn.nodeInfo i ∈ warns → processNode fs mems i = none) := by
    intro mems warns0 hw0 hn
    rw [get_nodes_info_nodes] at hn
    cases hdirs : fs.node_dirs with
    | none =>
      rw [hdirs] at hn
      injection hn with hn
      injection hn with hn1 hn2
      subst hn1
      subst hn2
      constructor
      · intro nd hnd
        exact absurd hnd (List.not_mem_nil nd)
      · intro i hi
        rcases List.mem_append.mp hi with hi | hi
        · exact absurd hi (hw0 i)
        · rcases List.mem_cons.mp hi with hi | hi
          · exact Warn.noConfusion hi
          · exact absurd hi (List.not_mem_nil _)
    | some dirs =>
      rw [hdirs] at hn
      injection hn with hn
      injection hn with hn1 hn2
      subst hn1
      subst hn2
      constructor
      · intro nd hnd
        have hnd2 : nd ∈ (dirs.map (fun i => (i, processNode fs mems i))).filterMap (·.2) :=
          (List.perm_insertionSort _ _).mem_iff.mp hnd
        obtain ⟨p, hp, hp2⟩ := List.mem_filterMap.mp hnd2
        obtain ⟨j, hj, hj2⟩ := List.mem_map.mp hp
        subst hj2
        have : processNode fs mems j = some nd := hp2
        rw [processNode_id fs mems j nd this]
        exact this
      · intro i hi
        rcases List.mem_append.mp hi with hi | hi
        · exact absurd hi (hw0 i)
        · obtain ⟨p, hp, hp2⟩ := List.mem_filterMap.mp hi
          obtain ⟨j, hj, hj2⟩ := List.mem_map.mp hp
          subst hj2
          by_cases hnone : (processNode fs mems j).isNone
          · rw [if_pos hnone] at hp2
            injection hp2 with hp2
            injection hp2 with hp2
            subst hp2
            exact Option.isNone_iff_eq_none.mp hnone
          · rw [if_neg hnone] at hp2
            exact Option.noConfusion hp2
  rw [get_nodes_info] at h
  cases hm : fs.has_memory with
  | none =>
    simp only [hm] at h
    exact ⟨[], main [] [Warn.memoryInfo] (by intro i hi; simp at hi) h⟩
  | some content =>
    cases hp : mapOption pyIntTok (splitOnChar ',' (stripChars content.data)) with
    | none =>
      simp only [hm, hp] at h
      exact Except.noConfusion h
    | some mems =>
      simp only [hm, hp] at h
      exact ⟨mems, main mems [] (by intro i hi; simp at hi) h⟩

/-- C7 counterexample: the produced node's id union is `[0, 7]`, which is not a
permutation of the membership list `[0, 1]` — CPU 1 was dropped by a sibling
read failure yet NO warning was recorded (the warning list is empty), and the
foreign id 7 appears. -/
theorem claim_C7_counterexample :
    get_nodes_info fsC7 = .ok ([⟨0, true, [[0, 7]], [10]⟩], []) ∧
      pyCpulist (stripChars ("0,1" : String).data) = some [0, 1] ∧
      _get_cpus_logical_ids fsC7 1 = .ok [] ∧
      ¬(([[0, 7]] : List (List Int)).flatten.Perm [0, 1]) := by
  refine ⟨by decide, by decide, by decide, by decide⟩

/-- C7 (amended): for a node produced by `get_nodes_info` whose membership list
is duplicate-free, whose member sibling reads all succeed, and whose non-empty
sibling lists are consistent (self-containing, duplicate-free, within the
membership list, and shared by all their members), the union of logical ids
over the node's core tuples is exactly the members whose sibling list is
non-empty: members whose sibling read failed are dropped silently — no warning
for this node is recorded. -/
theorem claim_C7_core_union (fs : SysFS) (nodes : List NodeInfo) (warns : List Warn)
    (hres : get_nodes_info fs = .ok (nodes, warns)) (nd : NodeInfo) (hmem : nd ∈ nodes)
    (raw : String) (cpus : List Int)
    (hraw : fs.cpulist nd.id = some raw)
    (hcpus : pyCpulist (stripChars raw.data) = some cpus)
    (hnodup : cpus.Nodup)
    (hok : ∀ c ∈ cpus, ∃ l, _get_cpus_logical_ids fs c = .ok l)
    (hcons : ∀ c ∈ cpus, ∀ l, _get_cpus_logical_ids fs c = .ok l → l ≠ [] →
      c ∈ l ∧ l.Nodup ∧ ∀ x ∈ l, x ∈ cpus ∧ _get_cpus_logical_ids fs x = .ok l) :
    nd.cores_list.flatten.Perm (cpus.filter (fun c => !(sibOf fs c).isEmpty)) ∧
      Warn.nodeInfo nd.id ∉ warns := by
  obtain ⟨mems, hnodes, hwarns⟩ := get_nodes_info_mem fs nodes warns hres
  have hproc := hnodes nd hmem
  constructor
  · rw [processNode_fields fs mems nd.id nd hproc raw cpus hraw hcpus hok]
    apply dedup_flatten_perm cpus (sibOf fs) hnodup
    intro c hc hne
    obtain ⟨l, hl⟩ := hok c hc
    have hsib : sibOf fs c = l := by
      rw [sibOf, hl]
      rfl
    rw [hsib] at hne ⊢
    obtain ⟨h1, h2, h3⟩ := hcons c hc l hl hne
    refine ⟨h1, h2, ?_⟩
    intro x hx
    obtain ⟨hx1, hx2⟩ := h3 x hx
    refine ⟨hx1, ?_⟩
    rw [sibOf, hx2]
    rfl
  · intro hw
    rw [hwarns nd.id hw] at hproc
    exact Option.noConfusion hproc

/-- Witness for C7's amended theorem on the consistent topology. -/
theorem claim_C7_witness :
    get_nodes_info fsC7good = .ok ([⟨0, true, [[0, 2], [1, 3]], [10]⟩], []) ∧
      ((⟨0, true, [[0, 2], [1, 3]], [10]⟩ : NodeInfo).cores_list.flatten.Perm
          (([0, 1, 2, 3] : List Int).filter (fun c => !(sibOf fsC7good c).isEmpty)) ∧
        Warn.nodeInfo (⟨0, true, [[0, 2], [1, 3]], [10]⟩ : NodeInfo).id ∉ ([] : List Warn)) :=
  ⟨by decide,
    claim_C7_core_union fsC7good [⟨0, true, [[0, 2], [1, 3]], [10]⟩] [] (by decide)
      ⟨0, true, [[0, 2], [1, 3]], [10]⟩ (by decide) "0-3" [0, 1, 2, 3] (by decide) (by decide)
      (by decide)
      (by
        intro c hc
        fin_cases hc
        · exact ⟨[0, 2], by decide⟩
        · exact ⟨[1, 3], by decide⟩
        · exact ⟨[0, 2], by decide⟩
        · exact ⟨[1, 3], by decide⟩)
      (by
        intro c hc l hl hne
        have hc' : sibOf fsC7good c = l := by
          rw [sibOf, hl]
          rfl
        fin_cases hc
        · have h1 : l = [0, 2] := by rw [← hc']; decide
          subst h1
          decide
        · have h1 : l = [1, 3] := by rw [← hc']; decide
          subst h1
          decide
        · have h1 : l = [0, 2] := by rw [← hc']; decide
          subst h1
          decide
        · have h1 : l = [1, 3] := by rw [← hc']; decide
          subst h1
          decide)⟩

theorem oLE_none_right (x : Option Int) : oLE x none = true := by
  cases x <;> rfl

theorem oLE_refl (x : Option Int) : oLE x x = true := by
  cases x with
  | none => rfl
  | some a => simp [oLE]

theorem oLT_none_right (x : Option Int) : oLT x none = x.isSome := by
  cases x <;> rfl

theorem oLT_isSome {x y : Option Int} (h : oLT x y = true) : x.isSome := by
  cases x with
  | none => exact absurd h (by simp [oLT])
  | some a => rfl

theorem oLE_total {x y : Option Int} (h : oLE x y = false) : oLE y x = true := by
  cases x <;> cases y <;> simp [oLE] at * <;> omega

theorem oLE_of_not_oLT {x y : Option Int} (h : oLT x y = false) : oLE y x = true := by
  cases x <;> cases y <;> simp [oLT, oLE] at * <;> omega

theorem oLT_of_not_oLE {x y : Option Int} (h : oLE x y = false) : oLT y x = true := by
  cases x <;> cases y <;> simp [oLT, oLE] at * <;> omega

theorem not_oLT_of_oLE {x y : Option Int} (h : oLE x y = true) : oLT y x = false := by
  cases x <;> cases y <;> simp [oLT, oLE] at * <;> omega

theorem oLE_trans {x y z : Option Int} (h1 : oLE x y = true) (h2 : oLE y z = true) :
    oLE x z = true := by
  cases x <;> cases y <;> cases z <;> simp [oLE] at * <;> omega

theorem oLE_oLT_trans {x y z : Option Int} (h1 : oLE x y = true) (h2 : oLT y z = true) :
    oLT x z = true := by
  cases x <;> cases y <;> cases z <;> simp [oLT, oLE] at * <;> omega

theorem oLT_oLE_trans {x y z : Option Int} (h1 : oLT x y = true) (h2 : oLE y z = true) :
    oLT x z = true := by
  cases x <;> cases y <;> cases z <;> simp [oLT, oLE] at * <;> omega

theorem oLE_of_oLT {x y : Option Int} (h : oLT x y = true) : oLE x y = true := by
  cases x <;> cases y <;> simp [oLT, oLE] at * <;> omega

theorem find?_congr_mem {α : Type} {p q : α → Bool} :
    ∀ l : List α, (∀ a ∈ l, p a = q a) → l.find? p = l.find? q := by
  intro l
  induction l with
  | nil => intro _; rfl
  | cons a l ih =>
    intro h
    rw [List.find?_cons, List.find?_cons, h a (List.mem_cons_self a l),
      ih (fun x hx => h x (List.mem_cons_of_mem a hx))]

/-- A non-empty list of anchors always has a first minimal element under the
total preorder `oLE` on distances. -/
theorem exists_min_anchor (n : NodeInfo) :
    ∀ (ms : List NodeInfo), ms ≠ [] →
      ∃ a ∈ ms, ∀ b ∈ ms, oLE (dOf n a) (dOf n b) = true := by
  intro ms
  induction ms with
  | nil => intro h; exact absurd rfl h
  | cons m ms ih =>
    intro _
    cases hms : ms with
    | nil =>
      refine ⟨m, List.mem_cons_self _ _, ?_⟩
      intro b hb
      rcases List.mem_cons.mp hb with rfl | hb
      · exact oLE_refl _
      · exact absurd hb (List.not_mem_nil b)
    | cons m2 ms2 =>
      obtain ⟨a, ha, hmin⟩ := ih (by rw [hms]; exact List.cons_ne_nil m2 ms2)
      rw [← hms] at *
      by_cases hm : oLE (dOf n m) (dOf n a) = true
      · refine ⟨m, List.mem_cons_self _ _, ?_⟩
        intro b hb
        rcases List.mem_cons.mp hb with rfl | hb
        · exact oLE_refl _
        · exact oLE_trans hm (hmin b hb)
      · have hm2 : oLE (dOf n a) (dOf n m) = true :=
          oLE_total (by revert hm; cases h : oLE (dOf n m) (dOf n a) <;> simp)
        refine ⟨a, List.mem_cons_of_mem _ ha, ?_⟩
        intro b hb
        rcases List.mem_cons.mp hb with rfl | hb
        · exact hm2
        · exact hmin b hb

theorem oLT_trans {x y z : Option Int} (h1 : oLT x y = true) (h2 : oLT y z = true) :
    oLT x z = true := by
  cases x <;> cases y <;> cases z <;> simp [oLT] at * <;> omega

/-- The running-minimum scan returns the id of the first anchor that strictly
improves on the incoming minimum and is minimal among the remaining anchors —
the first global minimizer below `cm` — falling back to the incoming best. -/
theorem closestScan_eq (n : NodeInfo) :
    ∀ (ms : List NodeInfo) (cm : Option Int) (cb : Option Nat),
      closestScan n ms cm cb =
        (match ms.find? (fun a => oLT (dOf n a) cm &&
            ms.all (fun b => oLE (dOf n a) (dOf n b))) with
          | some a => some a.id
          | none => cb) := by
  intro ms
  induction ms with
  | nil => intro cm cb; rfl
  | cons m ms ih =>
    intro cm cb
    rw [closestScan]
    cases hdm : dOf n m with
    | none =>
      rw [ih cm cb]
      have hm : (oLT (dOf n m) cm && (m :: ms).all (fun b => oLE (dOf n m) (dOf n b))) = false := by
        rw [hdm]
        rfl
      have hskip : List.find? (fun a => oLT (dOf n a) cm &&
          (m :: ms).all (fun b => oLE (dOf n a) (dOf n b))) (m :: ms) =
          List.find? (fun a => oLT (dOf n a) cm &&
          (m :: ms).all (fun b => oLE (dOf n a) (dOf n b))) ms := by
        apply List.find?_cons_of_neg
        rw [hm]
        exact Bool.false_ne_true
      rw [hskip]
      have hcongr :
          ms.find? (fun a => oLT (dOf n a) cm && ms.all (fun b => oLE (dOf n a) (dOf n b))) =
          ms.find? (fun a => oLT (dOf n a) cm &&
            (m :: ms).all (fun b => oLE (dOf n a) (dOf n b))) := by
        apply find?_congr_mem
        intro a _
        rw [List.all_cons, hdm, oLE_none_right, Bool.true_and]
      rw [hcongr]
    | some d =>
      show (if oLT (some d) cm = true then closestScan n ms (some d) (some m.id)
          else closestScan n ms cm cb) = _
      by_cases hlt : oLT (some d) cm = true
      · rw [if_pos hlt, ih (some d) (some m.id)]
        by_cases hall : ms.all (fun b => oLE (some d) (dOf n b)) = true
        · have hm : (oLT (dOf n m) cm &&
              (m :: ms).all (fun b => oLE (dOf n m) (dOf n b))) = true := by
            rw [hdm, List.all_cons, hdm, oLE_refl, hlt, hall]
            rfl
          have hfind : List.find? (fun a => oLT (dOf n a) cm &&
              (m :: ms).all (fun b => oLE (dOf n a) (dOf n b))) (m :: ms) = some m := by
            apply List.find?_cons_of_pos
            exact hm
          rw [hfind]
          have hnone : ms.find? (fun a => oLT (dOf n a) (some d) &&
              ms.all (fun b => oLE (dOf n a) (dOf n b))) = none := by
            rw [List.find?_eq_none]
            intro a ha hpred
            rw [Bool.and_eq_true] at hpred
            have h1 : oLE (some d) (dOf n a) = true := (List.all_eq_true.mp hall) a ha
            rw [not_oLT_of_oLE h1] at hpred
            exact Bool.false_ne_true hpred.1
          rw [hnone]
        · have hbex : ∃ b ∈ ms, oLE (some d) (dOf n b) = false := by
            by_contra hc
            push_neg at hc
            apply hall
            rw [List.all_eq_true]
            intro b hb
            cases h2 : oLE (some d) (dOf n b) with
            | true => rfl
            | false => exact absurd h2 (hc b hb)
          obtain ⟨b, hb, hbf⟩ := hbex
          have hblt : oLT (dOf n b) (some d) = true := oLT_of_not_oLE hbf
          have hm : (oLT (dOf n m) cm &&
              (m :: ms).all (fun b => oLE (dOf n m) (dOf n b))) = false := by
            rw [hdm, List.all_cons, hdm, oLE_refl]
            cases hallb : ms.all (fun b => oLE (some d) (dOf n b)) with
            | false => simp
            | true => exact absurd hallb hall
          have hskip : List.find? (fun a => oLT (dOf n a) cm &&
              (m :: ms).all (fun b => oLE (dOf n a) (dOf n b))) (m :: ms) =
              List.find? (fun a => oLT (dOf n a) cm &&
              (m :: ms).all (fun b => oLE (dOf n a) (dOf n b))) ms := by
            apply List.find?_cons_of_neg
            rw [hm]
            exact Bool.false_ne_true
          rw [hskip]
          have hcongr :
              ms.find? (fun a => oLT (dOf n a) (some d) &&
                ms.all (fun b => oLE (dOf n a) (dOf n b))) =
              ms.find? (fun a => oLT (dOf n a) cm &&
                (m :: ms).all (fun b => oLE (dOf n a) (dOf n b))) := by
            apply find?_congr_mem
            intro a _
            rw [List.all_cons, hdm]
            cases hc : ms.all (fun b => oLE (dOf n a) (dOf n b)) with
            | false => simp
            | true =>
              have h1 : oLE (dOf n a) (dOf n b) = true := (List.all_eq_true.mp hc) b hb
              have h2 : oLT (dOf n a) (some d) = true := oLE_oLT_trans h1 hblt
              rw [h2, oLE_of_oLT h2, oLT_trans h2 hlt]
              simp
          have hmsne : ms ≠ [] := by
            intro hcon
            rw [hcon] at hb
            exact List.not_mem_nil b hb
          obtain ⟨a0, ha0, hmin0⟩ := exists_min_anchor n ms hmsne
          have hpred0 : (oLT (dOf n a0) (some d) &&
              ms.all (fun b => oLE (dOf n a0) (dOf n b))) = true := by
            have hga : ms.all (fun c => oLE (dOf n a0) (dOf n c)) = true :=
              List.all_eq_true.mpr (fun c hc => hmin0 c hc)
            rw [oLE_oLT_trans (hmin0 b hb) hblt, hga]
            rfl
          have hsome : ∃ a', ms.find? (fun a => oLT (dOf n a) (some d) &&
              ms.all (fun b => oLE (dOf n a) (dOf n b))) = some a' :=
            Option.isSome_iff_exists.mp (List.find?_isSome.mpr ⟨a0, ha0, hpred0⟩)
          obtain ⟨a', ha'⟩ := hsome
          rw [hcongr] at ha'
          rw [hcongr, ha']
      · rw [if_neg hlt, ih cm cb]
        have hltf : oLT (some d) cm = false := by
          cases h : oLT (some d) cm with
          | false => rfl
          | true => exact absurd h hlt
        have hcm : oLE cm (some d) = true := oLE_of_not_oLT hltf
        have hm : (oLT (dOf n m) cm &&
            (m :: ms).all (fun b => oLE (dOf n m) (dOf n b))) = false := by
          rw [hdm, hltf]
          rfl
        have hskip : List.find? (fun a => oLT (dOf n a) cm &&
            (m :: ms).all (fun b => oLE (dOf n a) (dOf n b))) (m :: ms) =
            List.find? (fun a => oLT (dOf n a) cm &&
            (m :: ms).all (fun b => oLE (dOf n a) (dOf n b))) ms := by
          apply List.find?_cons_of_neg
          rw [hm]
          exact Bool.false_ne_true
        rw [hskip]
        have hcongr :
            ms.find? (fun a => oLT (dOf n a) cm &&
              ms.all (fun b => oLE (dOf n a) (dOf n b))) =
            ms.find? (fun a => oLT (dOf n a) cm &&
              (m :: ms).all (fun b => oLE (dOf n a) (dOf n b))) := by
          apply find?_congr_mem
          intro a _
          rw [List.all_cons, hdm]
          cases hc1 : oLT (dOf n a) cm with
          | false => rfl
          | true =>
            have h2 : oLT (dOf n a) (some d) = true := oLT_oLE_trans hc1 hcm
            rw [oLE_of_oLT h2]
            simp
        rw [hcongr]

/-- `closest_mem_id` is the id of the spec's chosen anchor: the first anchor in
scan order with a distance entry minimal over all anchors. -/
theorem closestMem_eq_specBest (mems : List NodeInfo) (n : NodeInfo) :
    closestMem mems n = (specBest mems n).map (·.id) := by
  rw [closestMem, closestScan_eq, specBest]
  have hcongr :
      mems.find? (fun a => oLT (dOf n a) none &&
        mems.all (fun b => oLE (dOf n a) (dOf n b))) =
      mems.find? (fun a => (dOf n a).isSome &&
        mems.all (fun b => oLE (dOf n a) (dOf n b))) := by
    apply find?_congr_mem
    intro a _
    rw [oLT_none_right]
  rw [hcongr]
  cases mems.find? (fun a => (dOf n a).isSome &&
      mems.all (fun b => oLE (dOf n a) (dOf n b))) <;> rfl

theorem dictInsert_fresh (k : Nat) (v : List NodeInfo) :
    ∀ d : List (Nat × List NodeInfo), (∀ kv ∈ d, kv.1 ≠ k) →
      dictInsert k v d = d ++ [(k, v)] := by
  intro d
  induction d with
  | nil => intro _; rfl
  | cons kv rest ih =>
    intro h
    obtain ⟨k', v'⟩ := kv
    rw [dictInsert, if_neg (h (k', v') (List.mem_cons_self _ _)),
      ih (fun kv hkv => h kv (List.mem_cons_of_mem _ hkv)), List.cons_append]

theorem dictSeed_go (d0 : List (Nat × List NodeInfo)) :
    ∀ mems : List NodeInfo,
      (∀ m ∈ mems, ∀ kv ∈ d0, kv.1 ≠ m.id) → (mems.map (·.id)).Nodup →
      mems.foldl (fun d m => dictInsert m.id [m] d) d0 =
        d0 ++ mems.map (fun m => (m.id, [m])) := by
  intro mems
  induction mems generalizing d0 with
  | nil => intro _ _; simp
  | cons m ms ih =>
    intro hfresh hnodup
    rw [List.foldl_cons,
      dictInsert_fresh m.id [m] d0 (fun kv hkv => hfresh m (List.mem_cons_self _ _) kv hkv)]
    rw [List.map_cons, List.nodup_cons] at hnodup
    rw [ih (d0 ++ [(m.id, [m])]) ?_ hnodup.2, List.map_cons, List.append_assoc,
      List.singleton_append]
    intro m' hm' kv hkv
    rcases List.mem_append.mp hkv with hkv | hkv
    · exact hfresh m' (List.mem_cons_of_mem _ hm') kv hkv
    · rcases List.mem_cons.mp hkv with rfl | hkv
      · intro hc
        exact hnodup.1 (by rw [show m.id = m'.id from hc]; exact List.mem_map_of_mem _ hm')
      · exact absurd hkv (List.not_mem_nil kv)

theorem dictSeed_eq (mems : List NodeInfo) (hnodup : (mems.map (·.id)).Nodup) :
    dictSeed mems = mems.map (fun m => (m.id, [m])) := by
  rw [dictSeed, dictSeed_go [] mems (fun m _ kv hkv => absurd hkv (List.not_mem_nil kv)) hnodup,
    List.nil_append]

theorem lookupD_seed (mems : List NodeInfo) (hnodup : (mems.map (·.id)).Nodup)
    (a : NodeInfo) (ha : a ∈ mems) :
    lookupD (dictSeed mems) a.id = some [a] := by
  rw [dictSeed_eq mems hnodup, lookupD]
  induction mems with
  | nil => exact absurd ha (List.not_mem_nil a)
  | cons m ms ih =>
    rw [List.map_cons, List.nodup_cons] at hnodup
    rcases List.mem_cons.mp ha with rfl | ha2
    · rw [List.map_cons, List.find?_cons_of_pos _ (by simp)]
      rfl
    · have hne : m.id ≠ a.id := by
        intro hc
        exact hnodup.1 (by rw [hc]; exact List.mem_map_of_mem _ ha2)
      rw [List.map_cons, List.find?_cons_of_neg _ (by simp [hne])]
      exact ih hnodup.2 ha2

theorem lookupD_dictAppend_self (k : Nat) (x : NodeInfo) :
    ∀ d : List (Nat × List NodeInfo),
      lookupD (dictAppend k x d) k = (lookupD d k).map (· ++ [x]) := by
  intro d
  induction d with
  | nil => rfl
  | cons kv rest ih =>
    obtain ⟨k', v⟩ := kv
    by_cases hk : k' = k
    · subst hk
      rw [dictAppend, if_pos rfl, lookupD, List.find?_cons_of_pos _ (by simp), lookupD,
        List.find?_cons_of_pos _ (by simp)]
      rfl
    · rw [dictAppend, if_neg hk, lookupD, List.find?_cons_of_neg _ (by simp [hk]), lookupD,
        List.find?_cons_of_neg _ (by simp [hk])]
      exact ih

theorem lookupD_dictAppend_other (k k' : Nat) (x : NodeInfo) (hne : k' ≠ k) :
    ∀ d : List (Nat × List NodeInfo),
      lookupD (dictAppend k' x d) k = lookupD d k := by
  intro d
  induction d with
  | nil => rfl
  | cons kv rest ih =>
    obtain ⟨k0, v⟩ := kv
    by_cases hk : k0 = k'
    · subst hk
      rw [dictAppend, if_pos rfl, lookupD, List.find?_cons_of_neg _ (by simp [hne]), lookupD,
        List.find?_cons_of_neg _ (by simp [hne])]
    · rw [dictAppend, if_neg hk, lookupD]
      by_cases hk2 : k0 = k
      · subst hk2
        rw [List.find?_cons_of_pos _ (by simp), lookupD, List.find?_cons_of_pos _ (by simp)]
      · rw [List.find?_cons_of_neg _ (by simp [hk2]), lookupD,
          List.find?_cons_of_neg _ (by simp [hk2])]
        exact ih

/-- One assignment step extends (by a possibly empty suffix) the value at any
key whose entry has the anchor-headed shape. -/
theorem assignStep_shape (mems : List NodeInfo) (m : NodeInfo) (k : Nat) (a : NodeInfo)
    (d : List (Nat × List NodeInfo)) (t : List NodeInfo)
    (h : lookupD d k = some (a :: t)) :
    ∃ t2, lookupD (assignStep mems d m) k = some (a :: (t ++ t2)) := by
  rw [assignStep]
  by_cases hm : m.memory
  · rw [if_pos hm]
    exact ⟨[], by rw [List.append_nil]; exact h⟩
  · rw [if_neg hm]
    cases hc : closestMem mems m with
    | none => exact ⟨[], by rw [List.append_nil]; exact h⟩
    | some k' =>
      by_cases hk : k' = k
      · subst hk
        refine ⟨[m], ?_⟩
        rw [lookupD_dictAppend_self k' m d, h]
        rfl
      · exact ⟨[], by rw [List.append_nil, lookupD_dictAppend_other k k' m hk d]; exact h⟩

theorem assignNodes_shape (mems : List NodeInfo) (k : Nat) (a : NodeInfo) :
    ∀ (l : List NodeInfo) (d : List (Nat × List NodeInfo)) (t : List NodeInfo),
      lookupD d k = some (a :: t) →
      ∃ t2, lookupD (assignNodes mems l d) k = some (a :: (t ++ t2)) := by
  intro l
  induction l with
  | nil =>
    intro d t h
    exact ⟨[], by rw [List.append_nil]; exact h⟩
  | cons m l ih =>
    intro d t h
    obtain ⟨t2, h2⟩ := assignStep_shape mems m k a d t h
    obtain ⟨t3, h3⟩ := ih (assignStep mems d m) (t ++ t2) h2
    exact ⟨t2 ++ t3, by rw [← List.append_assoc]; exact h3⟩

theorem assignNodes_adds (mems : List NodeInfo) (n : NodeInfo) (k : Nat) (a : NodeInfo)
    (hnm : n.memory = false) (hck : closestMem mems n = some k) :
    ∀ (l : List NodeInfo) (d : List (Nat × List NodeInfo)) (t : List NodeInfo),
      n ∈ l → lookupD d k = some (a :: t) →
      ∃ t', lookupD (assignNodes mems l d) k = some (a :: t') ∧ n ∈ t' := by
  intro l
  induction l with
  | nil =>
    intro d t hn _
    exact absurd hn (List.not_mem_nil n)
  | cons m l ih =>
    intro d t hn h
    rcases List.mem_cons.mp hn with rfl | hn2
    · have hstep : lookupD (assignStep mems d n) k = some (a :: (t ++ [n])) := by
        rw [assignStep, if_neg (by rw [hnm]; exact Bool.false_ne_true), hck,
          lookupD_dictAppend_self k n d, h]
        rfl
      obtain ⟨t3, h3⟩ := assignNodes_shape mems k a l (assignStep mems d n) (t ++ [n]) hstep
      refine ⟨t ++ [n] ++ t3, h3, ?_⟩
      simp
    · obtain ⟨t2, h2⟩ := assignStep_shape mems m k a d t h
      exact ih (assignStep mems d m) (t ++ t2) hn2 h2

theorem lookupD_mem (d : List (Nat × List NodeInfo)) (k : Nat) (v : List NodeInfo)
    (h : lookupD d k = some v) : (k, v) ∈ d := by
  rw [lookupD] at h
  cases hf : d.find? (fun kv => kv.1 == k) with
  | none => rw [hf] at h; exact Option.noConfusion h
  | some kv =>
    rw [hf] at h
    injection h with h
    have hmem := List.mem_of_find?_eq_some hf
    have hkey : kv.1 = k := by
      have := List.find?_some hf
      simpa using this
    obtain ⟨k0, v0⟩ := kv
    simp only at h hkey
    subst h
    subst hkey
    exact hmem

theorem sortCluster_head_mem (cluster : List NodeInfo) (anchor : NodeInfo)
    (rest : List NodeInfo) (h : cluster = anchor :: rest) :
    (sortCluster cluster).head? = some anchor ∧
      ∀ x, x ∈ sortCluster cluster ↔ x ∈ cluster := by
  subst h
  rw [sortCluster]
  refine ⟨rfl, ?_⟩
  intro x
  rw [List.mem_cons, List.mem_cons,
    (List.perm_insertionSort (fun x y => oLE (dOf x anchor) (dOf y anchor)) rest).mem_iff]

/-- C3: in `get_clusters` (anchor ids unique per the data-model invariant),
every non-memory node with a distance entry at some anchor's index lands in the
cluster of the first anchor whose entry in the node's distance vector is
minimal — missing entries count as infinite, and ties keep the first anchor in
scan order, which `specBest` expresses. -/
theorem claim_C3_nearest_anchor (nodes : List NodeInfo) (n : NodeInfo)
    (hnodup : ((nodes.filter (·.memory)).map (·.id)).Nodup)
    (hn : n ∈ nodes) (hnm : n.memory = false)
    (hreach : ∃ a ∈ nodes.filter (·.memory), (dOf n a).isSome) :
    ∃ a, specBest (nodes.filter (·.memory)) n = some a ∧
      (dOf n a).isSome ∧
      (∀ b ∈ nodes.filter (·.memory), oLE (dOf n a) (dOf n b) = true) ∧
      ∃ c ∈ get_clusters nodes, c.head? = some a ∧ n ∈ c := by
  obtain ⟨b0, hb0, hb0s⟩ := hreach
  have hmemsne : nodes.filter (·.memory) ≠ [] := by
    intro hc
    rw [hc] at hb0
    exact List.not_mem_nil b0 hb0
  obtain ⟨a0, ha0, hmin0⟩ := exists_min_anchor n (nodes.filter (·.memory)) hmemsne
  have ha0s : (dOf n a0).isSome := by
    cases hda0 : dOf n a0 with
    | some v => rfl
    | none =>
      have hle0 := hmin0 b0 hb0
      rw [hda0] at hle0
      cases hdb0 : dOf n b0 with
      | none =>
        rw [hdb0] at hb0s
        simp at hb0s
      | some w =>
        rw [hdb0] at hle0
        exact absurd hle0 (by simp [oLE])
  have hfind : ∃ a, specBest (nodes.filter (·.memory)) n = some a := by
    apply Option.isSome_iff_exists.mp
    apply List.find?_isSome.mpr
    refine ⟨a0, ha0, ?_⟩
    rw [ha0s, List.all_eq_true.mpr (fun c hc => hmin0 c hc)]
    rfl
  obtain ⟨a, ha⟩ := hfind
  have hamem : a ∈ nodes.filter (·.memory) := List.mem_of_find?_eq_some ha
  have hapred := List.find?_some ha
  rw [Bool.and_eq_true] at hapred
  refine ⟨a, ha, hapred.1, fun b hb => List.all_eq_true.mp hapred.2 b hb, ?_⟩
  have hclosest : closestMem (nodes.filter (·.memory)) n = some a.id := by
    rw [closestMem_eq_specBest, ha]
    rfl
  have hseed : lookupD (dictSeed (nodes.filter (·.memory))) a.id = some (a :: []) :=
    lookupD_seed (nodes.filter (·.memory)) hnodup a hamem
  obtain ⟨t', hlook, hnt⟩ := assignNodes_adds (nodes.filter (·.memory)) n a.id a hnm
    hclosest nodes (dictSeed (nodes.filter (·.memory))) [] hn hseed
  have hkv : (a.id, a :: t') ∈ assignNodes (nodes.filter (·.memory)) nodes
      (dictSeed (nodes.filter (·.memory))) := lookupD_mem _ _ _ hlook
  have hne1 : ¬(nodes.isEmpty = true) := by
    rw [List.isEmpty_iff]
    intro hc
    rw [hc] at hn
    exact List.not_mem_nil n hn
  have hne2 : ¬((nodes.filter (·.memory)).isEmpty = true) := by
    rw [List.isEmpty_iff]
    exact hmemsne
  have hget : get_clusters nodes =
      (assignNodes (nodes.filter (·.memory)) nodes (dictSeed (nodes.filter (·.memory)))).map
        (fun kv => sortCluster kv.2) := by
    rw [get_clusters, if_neg hne1, if_neg hne2]
  refine ⟨sortCluster (a :: t'), ?_, ?_, ?_⟩
  · rw [hget]
    exact List.mem_map.mpr ⟨(a.id, a :: t'), hkv, rfl⟩
  · exact (sortCluster_head_mem (a :: t') a t' rfl).1
  · rw [(sortCluster_head_mem (a :: t') a t' rfl).2 n]
    exact List.mem_cons_of_mem a hnt

/-- Witness for C3: two equidistant anchors; the node joins the cluster of the
anchor discovered first (id 1, which precedes id 0 in the node list). -/
theorem claim_C3_witness :
    ((⟨2, false, [], [7, 7]⟩ : NodeInfo) ∈
        [(⟨1, true, [], []⟩ : NodeInfo), ⟨0, true, [], []⟩, ⟨2, false, [], [7, 7]⟩]) ∧
      ∃ a, specBest ([(⟨1, true, [], []⟩ : NodeInfo), ⟨0, true, [], []⟩,
            ⟨2, false, [], [7, 7]⟩].filter (·.memory)) ⟨2, false, [], [7, 7]⟩ = some a ∧
        (dOf ⟨2, false, [], [7, 7]⟩ a).isSome ∧
        (∀ b ∈ [(⟨1, true, [], []⟩ : NodeInfo), ⟨0, true, [], []⟩,
            ⟨2, false, [], [7, 7]⟩].filter (·.memory),
          oLE (dOf ⟨2, false, [], [7, 7]⟩ a) (dOf ⟨2, false, [], [7, 7]⟩ b) = true) ∧
        ∃ c ∈ get_clusters [(⟨1, true, [], []⟩ : NodeInfo), ⟨0, true, [], []⟩,
            ⟨2, false, [], [7, 7]⟩],
          c.head? = some a ∧ (⟨2, false, [], [7, 7]⟩ : NodeInfo) ∈ c :=
  ⟨by decide,
    claim_C3_nearest_anchor _ _ (by decide) (by decide) (by decide) (by decide)⟩

theorem closestScan_none (n : NodeInfo) :
    ∀ (ms : List NodeInfo) (cm : Option Int) (cb : Option Nat),
      (∀ m ∈ ms, dOf n m = none) → closestScan n ms cm cb = cb := by
  intro ms
  induction ms with
  | nil => intro cm cb _; rfl
  | cons m ms ih =>
    intro cm cb h
    rw [closestScan, h m (List.mem_cons_self _ _)]
    exact ih cm cb (fun m' hm' => h m' (List.mem_cons_of_mem _ hm'))

theorem dInv_dictInsert (mems : List NodeInfo) (k : Nat) (m : NodeInfo)
    (hm : m.memory = true) :
    ∀ d, dInv mems d → dInv mems (dictInsert k [m] d) := by
  intro d
  induction d with
  | nil =>
    intro _ kv hkv x hx
    rcases List.mem_cons.mp hkv with rfl | hkv
    · rcases List.mem_cons.mp hx with rfl | hx
      · exact Or.inl hm
      · exact absurd hx (List.not_mem_nil x)
    · exact absurd hkv (List.not_mem_nil kv)
  | cons kv0 rest ih =>
    intro hinv kv hkv x hx
    obtain ⟨k0, v0⟩ := kv0
    rw [dictInsert] at hkv
    by_cases hk : k0 = k
    · rw [if_pos hk] at hkv
      rcases List.mem_cons.mp hkv with rfl | hkv
      · rcases List.mem_cons.mp hx with rfl | hx
        · exact Or.inl hm
        · exact absurd hx (List.not_mem_nil x)
      · exact hinv kv (List.mem_cons_of_mem _ hkv) x hx
    · rw [if_neg hk] at hkv
      rcases List.mem_cons.mp hkv with rfl | hkv
      · exact hinv (k0, v0) (List.mem_cons_self _ _) x hx
      · exact ih (fun kv' hkv' x' hx' => hinv kv' (List.mem_cons_of_mem _ hkv') x' hx')
          kv hkv x hx

theorem dInv_dictSeed (mems : List NodeInfo) (hmems : ∀ m ∈ mems, m.memory = true) :
    dInv mems (dictSeed mems) := by
  rw [dictSeed]
  have hgen : ∀ (l : List NodeInfo) (d0 : List (Nat × List NodeInfo)),
      (∀ m ∈ l, m.memory = true) → dInv mems d0 →
      dInv mems (l.foldl (fun d m => dictInsert m.id [m] d) d0) := by
    intro l
    induction l with
    | nil => intro d0 _ h; exact h
    | cons m l ih =>
      intro d0 hl h
      rw [List.foldl_cons]
      exact ih _ (fun m' hm' => hl m' (List.mem_cons_of_mem _ hm'))
        (dInv_dictInsert mems m.id m (hl m (List.mem_cons_self _ _)) d0 h)
  exact hgen mems [] hmems (fun kv hkv => absurd hkv (List.not_mem_nil kv))

theorem dInv_dictAppend (mems : List NodeInfo) (k : Nat) (x0 : NodeInfo)
    (hx0 : x0.memory = true ∨ (closestMem mems x0).isSome) :
    ∀ d, dInv mems d → dInv mems (dictAppend k x0 d) := by
  intro d
  induction d with
  | nil => intro _ kv hkv; exact absurd hkv (List.not_mem_nil kv)
  | cons kv0 rest ih =>
    intro hinv kv hkv x hx
    obtain ⟨k0, v0⟩ := kv0
    rw [dictAppend] at hkv
    by_cases hk : k0 = k
    · rw [if_pos hk] at hkv
      rcases List.mem_cons.mp hkv with rfl | hkv
      · rcases List.mem_append.mp hx with hx | hx
        · exact hinv (k0, v0) (List.mem_cons_self _ _) x hx
        · rcases List.mem_cons.mp hx with rfl | hx
          · exact hx0
          · exact absurd hx (List.not_mem_nil x)
      · exact hinv kv (List.mem_cons_of_mem _ hkv) x hx
    · rw [if_neg hk] at hkv
      rcases List.mem_cons.mp hkv with rfl | hkv
      · exact hinv (k0, v0) (List.mem_cons_self _ _) x hx
      · exact ih (fun kv' hkv' x' hx' => hinv kv' (List.mem_cons_of_mem _ hkv') x' hx')
          kv hkv x hx

theorem dInv_assignNodes (mems : List NodeInfo) :
    ∀ (l : List NodeInfo) (d : List (Nat × List NodeInfo)),
      dInv mems d → dInv mems (assignNodes mems l d) := by
  intro l
  induction l with
  | nil => intro d h; exact h
  | cons m l ih =>
    intro d h
    rw [assignNodes, List.foldl_cons, ← assignNodes]
    apply ih
    rw [assignStep]
    by_cases hm : m.memory
    · rw [if_pos hm]
      exact h
    · rw [if_neg hm]
      cases hc : closestMem mems m with
      | none => exact h
      | some k =>
        exact dInv_dictAppend mems k m (Or.inr (by rw [hc]; rfl)) d h

/-- C8 counterexample: node 1 has no distance entry at anchor 0's index, so it
is dropped from clustering, but the warning list is empty — the drop is NOT
reported as a warning (contradicting the claim's warning clause). -/
theorem claim_C8_counterexample :
    get_clusters [⟨0, true, [], [10]⟩, ⟨1, false, [], []⟩] = [[⟨0, true, [], [10]⟩]] ∧
      get_clusters_warnings [⟨0, true, [], [10]⟩, ⟨1, false, [], []⟩] = [] ∧
      ∀ c ∈ get_clusters [⟨0, true, [], [10]⟩, ⟨1, false, [], []⟩],
        (⟨1, false, [], []⟩ : NodeInfo) ∉ c := by
  refine ⟨by decide, by decide, by decide⟩

/-- C8 (amended): a non-memory node whose distance vector has no entry at any
anchor's id index appears in no returned cluster, and the drop is silent — no
warning is emitted (`get_clusters` only warns when there is no memory node at
all). -/
theorem claim_C8_unreachable_node_dropped (nodes : List NodeInfo) (n : NodeInfo)
    (hn : n ∈ nodes) (hnm : n.memory = false)
    (hmem : nodes.filter (·.memory) ≠ [])
    (hnone : ∀ a ∈ nodes.filter (·.memory), dOf n a = none) :
    (∀ c ∈ get_clusters nodes, n ∉ c) ∧ get_clusters_warnings nodes = [] := by
  have hne1 : ¬(nodes.isEmpty = true) := by
    rw [List.isEmpty_iff]
    intro hc
    rw [hc] at hn
    exact List.not_mem_nil n hn
  have hne2 : ¬((nodes.filter (·.memory)).isEmpty = true) := by
    rw [List.isEmpty_iff]
    exact hmem
  have hclosest : closestMem (nodes.filter (·.memory)) n = none := by
    rw [closestMem]
    exact closestScan_none n (nodes.filter (·.memory)) none none hnone
  constructor
  · intro c hc hnc
    rw [get_clusters, if_neg hne1, if_neg hne2] at hc
    obtain ⟨kv, hkv, hkv2⟩ := List.mem_map.mp hc
    have hinv : dInv (nodes.filter (·.memory))
        (assignNodes (nodes.filter (·.memory)) nodes (dictSeed (nodes.filter (·.memory)))) :=
      dInv_assignNodes _ nodes _
        (dInv_dictSeed _ (fun m hm => (List.mem_filter.mp hm).2))
    have hnv : n ∈ kv.2 := by
      subst hkv2
      obtain ⟨k0, v0⟩ := kv
      cases hv : v0 with
      | nil =>
        rw [hv] at hnc
        exact absurd hnc (List.not_mem_nil n)
      | cons anchor rest =>
        rw [hv] at hnc
        rw [((sortCluster_head_mem (anchor :: rest) anchor rest rfl).2 n)] at hnc
        simpa [hv] using hnc
    rcases hinv kv hkv n hnv with hcase | hcase
    · rw [hnm] at hcase
      exact Bool.false_ne_true hcase
    · rw [hclosest] at hcase
      exact Bool.false_ne_true hcase
  · rw [get_clusters_warnings, if_neg hne1, if_neg hne2]

/-- Witness for C8's amended theorem. -/
theorem claim_C8_witness :
    (∀ c ∈ get_clusters [⟨0, true, [], [10]⟩, ⟨2, false, [], [30]⟩, ⟨1, false, [], []⟩],
        (⟨1, false, [], []⟩ : NodeInfo) ∉ c) ∧
      get_clusters_warnings [⟨0, true, [], [10]⟩, ⟨2, false, [], [30]⟩, ⟨1, false, [], []⟩] = [] :=
  claim_C8_unreachable_node_dropped _ _ (by decide) (by decide) (by decide) (by decide)

end Sysinfo
